import Mathlib

/-!
# `automl_impl.h`: data model of the automl reduction

A shallow embedding of `vowpalwabbit/core/src/reductions/details/automl_impl.h`.

Conventions.
* `uint64_t`, `uint32_t` and `unsigned char` values are natural numbers; where the
  code does arithmetic on them the reduction modulo `2 ^ 64` is written out.
* A `double` is known here only by its 64-bit pattern (it is only copied, stored and
  compared for identity), so it is a natural number as well.
* `std::vector<T>` is `List T`; `std::set<K>` and `std::map<K, V>` are the list of their
  elements in iteration order (strictly increasing keys).
* A constructor is a function returning the constructed object; a reference parameter
  the callee could write to is returned next to the result.
-/

namespace Automl

/-! ## Constants and basic types -/

/-- `constexpr uint64_t MAX_CONFIGS = 10;` -/
def MAX_CONFIGS : Nat := 10

/-- `constexpr uint64_t CONFIGS_PER_CHAMP_CHANGE = 10;` -/
def CONFIGS_PER_CHAMP_CHANGE : Nat := 10

/-- `namespace_index` is `unsigned char`. -/
abbrev namespace_index := Nat

/-- One interaction: `std::vector<namespace_index>`. -/
abbrev interaction_t := List namespace_index

/-- `using interaction_vec_t = std::vector<std::vector<namespace_index>>;` -/
abbrev interaction_vec_t := List interaction_t

/-- A `double`, by its bit pattern. -/
abbrev double := Nat

/-- Modelled from the spec: `VW::estimator_config` is declared in
`vw/core/estimator_config.h`, which is not part of the sources. The spec describes it as
"a running sequential-test statistic parameterized by (alpha=significance level,
tau=decay/forgetting parameter)" with "accumulated sufficient statistics". -/
structure estimator_config where
  alpha : double
  tau : double
  statistics : List double
deriving DecidableEq, Repr

/-- `struct aml_estimator : VW::estimator_config` with its three data members; the base
class sub-object is the field `base`. -/
structure aml_estimator where
  base : estimator_config
  config_index : Nat
  eligible_to_inactivate : Bool
  live_interactions : interaction_vec_t
deriving DecidableEq, Repr

/-- `aml_estimator() : VW::estimator_config() {}`. The value built by the base class's
default constructor is the parameter `base0`; the members keep their default member
initializers (`config_index = 0`, `eligible_to_inactivate = false`, an empty vector). -/
def aml_estimator.ctor_default (base0 : estimator_config) : aml_estimator :=
  { base := base0, config_index := 0, eligible_to_inactivate := false, live_interactions := [] }

/-- `aml_estimator(double alpha, double tau) : VW::estimator_config(alpha, tau) {}`. The
base class constructor is the parameter `base_ctor`. -/
def aml_estimator.ctor_alpha_tau (base_ctor : double → double → estimator_config)
    (alpha tau : double) : aml_estimator :=
  { base := base_ctor alpha tau, config_index := 0, eligible_to_inactivate := false,
    live_interactions := [] }

/-- `aml_estimator(VW::estimator_config sc, uint64_t config_index,
bool eligible_to_inactivate, interaction_vec_t& live_interactions)`: the base is
copy-constructed from `sc` and the three members are assigned in the body. The last
parameter is a non-const reference, so its value after the call is returned as the
second component: the body only reads it (copy assignment). -/
def aml_estimator.ctor (sc : estimator_config) (config_index : Nat)
    (eligible_to_inactivate : Bool) (live_interactions : interaction_vec_t) :
    aml_estimator × interaction_vec_t :=
  let this : aml_estimator := aml_estimator.ctor_default sc
  let this := { this with config_index := config_index }
  let this := { this with eligible_to_inactivate := eligible_to_inactivate }
  let this := { this with live_interactions := live_interactions }
  (this, live_interactions)

/-- `enum class config_state`. -/
inductive config_state where
  | New
  | Live
  | Inactive
  | Removed
deriving DecidableEq, Repr

/-- `struct exclusion_config`. The `std::set` member is the list of its elements in
iteration order. -/
structure exclusion_config where
  exclusions : List interaction_t
  lease : Nat
  state : config_state
deriving DecidableEq, Repr

/-- `exclusion_config(uint64_t lease = 10) : lease(lease) {}`: `exclusions` is
default-constructed (empty) and `state` keeps its default member initializer `New`. -/
def exclusion_config.ctor (lease : Nat := 10) : exclusion_config :=
  { exclusions := [], lease := lease, state := config_state.New }

/-- `enum class automl_state`. -/
inductive automl_state where
  | Collecting
  | Experimenting
deriving DecidableEq, Repr

/-- `template <typename CMType> struct automl`. `CM` is the config manager type and
`Logger` the type behind `VW::io::logger*`; `adf_learner` is a pointer (`none` is
`nullptr`) to a learner of type `Learner`; `buffer_a_s` holds (action, score) pairs. -/
structure automl (CM Logger Learner : Type) where
  current_state : automl_state
  cm : CM
  logger : Logger
  adf_learner : Option Learner
  debug_reverse_learning_order : Bool
  should_save_predict_only_model : Bool
  buffer_a_s : List (Nat × double)

/-- `automl(std::unique_ptr<CMType> cm, VW::io::logger* logger, bool predict_only_model)`:
three members come from the initializer list, the others from their default member
initializers. -/
def automl.ctor {CM Logger Learner : Type} (cm : CM) (logger : Logger)
    (predict_only_model : Bool) : automl CM Logger Learner :=
  { current_state := automl_state.Collecting
    cm := cm
    logger := logger
    adf_learner := none
    debug_reverse_learning_order := false
    should_save_predict_only_model := predict_only_model
    buffer_a_s := [] }

/-! ## `std::set<std::vector<namespace_index>>` -/

/-- `operator<` of `std::vector<namespace_index>`, the ordering `std::set` uses through
`std::less`: `std::lexicographical_compare` of the two sequences. -/
def vec_lt : List Nat → List Nat → Bool
  | _, [] => false
  | [], _ :: _ => true
  | a :: l, b :: m => if a < b then true else if b < a then false else vec_lt l m

/-- `std::set::insert(x)` on the list of elements in iteration order: `x` is placed
before the first element greater than it, and nothing changes when an element
equivalent to `x` (neither less than the other) is already there. -/
def set_insert (x : interaction_t) : List interaction_t → List interaction_t
  | [] => [x]
  | y :: ys =>
    if vec_lt x y then x :: y :: ys
    else if vec_lt y x then y :: set_insert x ys
    else y :: ys

/-- `c.exclusions.insert(x)`. -/
def exclusion_config.insert (c : exclusion_config) (x : interaction_t) : exclusion_config :=
  { c with exclusions := set_insert x c.exclusions }

/-- The interactions of `xs` inserted one after the other, first to last. -/
def exclusion_config.insert_all (c : exclusion_config) (xs : List interaction_t) :
    exclusion_config :=
  xs.foldl exclusion_config.insert c

/-- A list is the content of a `std::set`: strictly increasing for `vec_lt`. -/
def set_sorted (s : List interaction_t) : Prop :=
  s.Pairwise (fun a b => vec_lt a b = true)

/-! ## `std::priority_queue<std::pair<float, uint64_t>>` and `choose`

The queue is the container adaptor of the C++ library over a `std::vector`: `push` is
`push_back` followed by `std::push_heap`, `top` is the front of the vector, `pop` is
`std::pop_heap` followed by `pop_back`, all with the comparator `std::less` of the
pairs. The heap algorithms are written out as libstdc++ has them, so that the model
also says what the queue does when a priority is NaN and the comparator is no longer
an ordering. -/

/-- A `float`, as far as comparisons go: NaN, or a value of a linearly ordered type
`P` (the floats that are not NaN, the two zeros being one value). -/
inductive float_t (P : Type) where
  | nan
  | val (x : P)
deriving DecidableEq, Repr

/-- `operator<` on `float`: false as soon as one side is NaN. -/
def float_lt {P : Type} [LinearOrder P] : float_t P → float_t P → Bool
  | float_t.val a, float_t.val b => decide (a < b)
  | _, _ => false

/-- `operator<` of `std::pair<float, uint64_t>`, which `std::less` (the queue's default
comparator) calls: `a.first < b.first || (!(b.first < a.first) && a.second < b.second)`. -/
def pair_lt {P : Type} [LinearOrder P] (a b : float_t P × Nat) : Bool :=
  float_lt a.1 b.1 || (!float_lt b.1 a.1 && decide (a.2 < b.2))

/-- The loop of `std::__push_heap(first, holeIndex, topIndex = 0, value)`: while the
hole is not the root and its parent is less than `value`, the parent moves into the
hole and the hole moves to the parent's place; then `value` is stored in the hole.
`fuel` bounds the number of iterations and is at least `hole` where the function is
called, which is enough since the hole index decreases. -/
def push_heap_loop {α : Type} (lt : α → α → Bool) (value : α) :
    Nat → List α → Nat → List α
  | 0, vec, hole => vec.set hole value
  | fuel + 1, vec, hole =>
    match vec[(hole - 1) / 2]? with
    | none => vec.set hole value
    | some parent =>
      if 0 < hole ∧ lt parent value = true then
        push_heap_loop lt value fuel (vec.set hole parent) ((hole - 1) / 2)
      else vec.set hole value

/-- `std::push_heap(first, last)`: the last element is the value to place, the hole
starts at its index. -/
def push_heap {α : Type} (lt : α → α → Bool) (vec : List α) : List α :=
  match vec.getLast? with
  | none => vec
  | some value => push_heap_loop lt value (vec.length - 1) vec (vec.length - 1)

/-- The first loop of `std::__adjust_heap(first, holeIndex, len, value)`: while the
hole has two children, the greater one (the right one unless it is less than the left
one) moves into the hole and the hole moves to its place. The result is the vector
and the index of the hole. `fuel` bounds the number of iterations and is `len` where
the function is called, which is enough since the hole index increases. -/
def adjust_heap_loop {α : Type} (lt : α → α → Bool) (len : Nat) :
    Nat → List α → Nat → List α × Nat
  | 0, vec, hole => (vec, hole)
  | fuel + 1, vec, hole =>
    if hole < (len - 1) / 2 then
      match vec[2 * (hole + 1)]?, vec[2 * (hole + 1) - 1]? with
      | some right, some left =>
        if lt right left = true then
          adjust_heap_loop lt len fuel (vec.set hole left) (2 * (hole + 1) - 1)
        else adjust_heap_loop lt len fuel (vec.set hole right) (2 * (hole + 1))
      | _, _ => (vec, hole)
    else (vec, hole)

/-- The step of `std::__adjust_heap` after its loop: when `len` is even and the hole
is the parent of the last element, its only child, that child moves into the hole. -/
def adjust_heap_last {α : Type} (len : Nat) (vec : List α) (hole : Nat) : List α × Nat :=
  if len % 2 = 0 ∧ hole = (len - 2) / 2 then
    match vec[2 * (hole + 1) - 1]? with
    | some left => (vec.set hole left, 2 * (hole + 1) - 1)
    | none => (vec, hole)
  else (vec, hole)

/-- `std::__adjust_heap(first, 0, len, value)` on the whole vector: the hole goes from
the root down to a leaf, then `value` is pushed up from there. -/
def adjust_heap {α : Type} (lt : α → α → Bool) (vec : List α) (value : α) : List α :=
  let s1 := adjust_heap_loop lt vec.length vec.length vec 0
  let s2 := adjust_heap_last vec.length s1.1 s1.2
  push_heap_loop lt value s2.2 s2.1 s2.2

/-- `std::pop_heap(first, last)` followed by `pop_back()`: with more than one element,
the last element is the value re-placed from the root in the vector without it; the
old front, moved to the end by `pop_heap`, is what `pop_back` removes. -/
def pop_heap_back {α : Type} (lt : α → α → Bool) (vec : List α) : List α :=
  match vec.getLast? with
  | none => []
  | some last => if vec.length ≤ 1 then [] else adjust_heap lt vec.dropLast last

/-- An `index_queue`: the vector the queue adapts, in heap order. -/
abbrev priority_queue (P : Type) := List (float_t P × Nat)

/-- `index_queue.push(e)`. -/
def priority_queue.push {P : Type} [LinearOrder P] (q : priority_queue P)
    (e : float_t P × Nat) : priority_queue P :=
  push_heap pair_lt (q ++ [e])

/-- `index_queue.top()`: the front of the vector; `none` on an empty queue (where
`top()` is undefined). -/
def priority_queue.top {P : Type} : priority_queue P → Option (float_t P × Nat)
  | [] => none
  | m :: _ => some m

/-- `index_queue.pop()`. -/
def priority_queue.pop {P : Type} [LinearOrder P] (q : priority_queue P) :
    priority_queue P :=
  pop_heap_back pair_lt q

/-- The queue after the entries `es` have been pushed one after the other (first to
last) onto an empty queue. -/
def priority_queue.of_pushes {P : Type} [LinearOrder P] (es : List (float_t P × Nat)) :
    priority_queue P :=
  es.foldl priority_queue.push []

/-- The states an `index_queue` is in when no priority pushed is NaN: the empty queue
and what `push` (of an entry whose priority is not NaN) and `pop` make of such a
state. -/
inductive priority_queue.reachable {P : Type} [LinearOrder P] :
    priority_queue P → Prop where
  | empty : priority_queue.reachable []
  | push (q : priority_queue P) (e : float_t P × Nat) :
      priority_queue.reachable q → e.1 ≠ float_t.nan →
      priority_queue.reachable (priority_queue.push q e)
  | pop (q : priority_queue P) :
      priority_queue.reachable q → priority_queue.reachable (priority_queue.pop q)

/-- Modelled from the spec: the body of `interaction_config_manager::choose` is not in
the sources (the header only declares it, taking the queue by reference and returning a
`uint64_t`). The spec has it select "the next handle to admit" and has `schedule` admit
"by popping the highest-priority entry from `index_queue`": the handle of the queue's
top entry is returned and that entry is popped. The result is the handle together with
the queue after the call. -/
def choose {P : Type} [LinearOrder P] (index_queue : priority_queue P) :
    Option (Nat × priority_queue P) :=
  match priority_queue.top index_queue with
  | none => none
  | some m => some (m.2, priority_queue.pop index_queue)

/-- The handle the spec's sentence describes ("highest priority, ties by earliest
insertion"), for entries inserted in the order `es`: the handle of the first entry of
`es` whose priority no entry exceeds. -/
def earliest_max_handle {P : Type} [LinearOrder P] (es : List (float_t P × Nat)) :
    Option Nat :=
  (es.find? (fun e => es.all (fun e2 => !float_lt e.1 e2.1))).map Prod.snd

/-- The entry at index `i` is not greater than its parent, for the order of the keys
`key`. -/
def edge_ok {α K : Type} [LinearOrder K] (key : α → K) (vec : List α) (i : Nat) : Prop :=
  ∀ x p, vec[i]? = some x → vec[(i - 1) / 2]? = some p → key x ≤ key p

/-- The vector is a heap: no entry is greater than its parent. -/
def is_heap {α K : Type} [LinearOrder K] (key : α → K) (vec : List α) : Prop :=
  ∀ i, 0 < i → edge_ok key vec i

/-- The vector is a heap but for the entry at `hole`, whose value does not count: the
entries away from the hole are not greater than their parents, and the children of the
hole are not greater than its parent. -/
def heap_except {α K : Type} [LinearOrder K] (key : α → K) (vec : List α) (hole : Nat) :
    Prop :=
  (∀ i, 0 < i → i ≠ hole → (i - 1) / 2 ≠ hole → edge_ok key vec i) ∧
  (∀ i x g, 0 < i → (i - 1) / 2 = hole → 0 < hole → vec[i]? = some x →
    vec[(hole - 1) / 2]? = some g → key x ≤ key g)

/-- The place of an entry in the lexicographic order of (priority, handle); NaN is
given the place below all priorities, which plays no part where no priority is NaN. -/
def entry_key {P : Type} [LinearOrder P] (e : float_t P × Nat) : Lex (WithBot P × Nat) :=
  match e.1 with
  | float_t.nan => toLex ((⊥ : WithBot P), e.2)
  | float_t.val p => toLex ((p : WithBot P), e.2)

/-- The priority of the entry is not NaN. -/
def not_nan {P : Type} (e : float_t P × Nat) : Prop := e.1 ≠ float_t.nan

/-! ## `interaction_config_manager` -/

/-- The data members of `template <typename config_oracle_impl> struct
interaction_config_manager`, in the order of the header. `W` is the type of one cell
of the weight array behind `dense_parameters& weights`, `P` the type of the priority
scores that are not NaN. The logger, the oracle object and the five raw pointers (all
`nullptr` by their default member initializers) carry no data of their own and are
left out.
Five members are declared `const`: `current_champ`, `global_lease`,
`max_live_configs`, `_lb_trick` and `_ccb_on`. -/
structure interaction_config_manager (P W : Type) where
  total_champ_switches : Nat
  total_learn_count : Nat
  current_champ : Nat
  global_lease : Nat
  max_live_configs : Nat
  priority_challengers : Nat
  interaction_type : String
  weights : List W
  automl_significance_level : double
  automl_estimator_decay : double
  wpp : Nat
  _lb_trick : Bool
  _ccb_on : Bool
  per_live_model_state_double : List double
  per_live_model_state_uint64 : List Nat
  ns_counter : List (namespace_index × Nat)
  configs : List exclusion_config
  estimators : List (aml_estimator × estimator_config)
  index_queue : priority_queue P

/-- The values the constructor gives, in its member initializer list, to the members
that have no default member initializer in the header. The constructor is declared as
`interaction_config_manager(uint64_t, uint64_t, std::shared_ptr<VW::rand_state>, uint64_t,
const std::string&, const std::string&, dense_parameters&, float (*)(...), double, double,
VW::io::logger*, uint32_t&, bool, bool)`; its initializer list is not in the sources, so
how these values come from the arguments is left open. -/
structure member_initializers (W : Type) where
  global_lease : Nat
  max_live_configs : Nat
  priority_challengers : Nat
  interaction_type : String
  weights : List W
  automl_significance_level : double
  automl_estimator_decay : double
  wpp : Nat
  _lb_trick : Bool
  _ccb_on : Bool

/-- What a member function leaves of its work: a `const` data member cannot be
assigned, so whatever state `after` the body computes from `before`, the five `const`
members still hold the values they had in `before`. -/
def keep_const {P W : Type} (before after : interaction_config_manager P W) :
    interaction_config_manager P W :=
  { after with
    current_champ := before.current_champ
    global_lease := before.global_lease
    max_live_configs := before.max_live_configs
    _lb_trick := before._lb_trick
    _ccb_on := before._ccb_on }

/-- A call of a non-const member function whose body is `body`. -/
def member_call {P W : Type}
    (body : interaction_config_manager P W → interaction_config_manager P W)
    (s : interaction_config_manager P W) : interaction_config_manager P W :=
  keep_const s (body s)

/-- The members as they stand when the constructor's body starts: the three members
with a default member initializer in the header take it (`total_champ_switches = 0`,
`total_learn_count = 0`, `current_champ = 0`), the containers are empty, and the
other members take the values of the initializer list. -/
def interaction_config_manager.members_init {P W : Type} (a : member_initializers W) :
    interaction_config_manager P W :=
  { total_champ_switches := 0
    total_learn_count := 0
    current_champ := 0
    global_lease := a.global_lease
    max_live_configs := a.max_live_configs
    priority_challengers := a.priority_challengers
    interaction_type := a.interaction_type
    weights := a.weights
    automl_significance_level := a.automl_significance_level
    automl_estimator_decay := a.automl_estimator_decay
    wpp := a.wpp
    _lb_trick := a._lb_trick
    _ccb_on := a._ccb_on
    per_live_model_state_double := []
    per_live_model_state_uint64 := []
    ns_counter := []
    configs := []
    estimators := []
    index_queue := [] }

/-- The constructor: member initialization, then the constructor's body `ctor_body`,
which is not in the sources and is a parameter. -/
def interaction_config_manager.ctor {P W : Type} (a : member_initializers W)
    (ctor_body : interaction_config_manager P W → interaction_config_manager P W) :
    interaction_config_manager P W :=
  member_call ctor_body (interaction_config_manager.members_init a)

/-- The two public operations declared in the header. -/
inductive manager_op where
  | schedule
  | update_champ
deriving DecidableEq, Repr

/-- A sequence of `schedule()` and `update_champ()` calls, first to last. The bodies of
the two member functions are not in the sources and are the parameters
`schedule_body` and `update_champ_body`. -/
def run_ops {P W : Type}
    (schedule_body update_champ_body :
      interaction_config_manager P W → interaction_config_manager P W) :
    List manager_op → interaction_config_manager P W → interaction_config_manager P W
  | [], s => s
  | manager_op.schedule :: ops, s =>
    run_ops schedule_body update_champ_body ops (member_call schedule_body s)
  | manager_op.update_champ :: ops, s =>
    run_ops schedule_body update_champ_body ops (member_call update_champ_body s)

/-! ## `clear_non_champ_weights`

The weight array is the list of its cells; `W` is the type of one cell. The layout of
`dense_parameters`, which says what slot a cell belongs to, is not in the sources: it
is the parameter `slot_of_cell`, a function of the stride `wpp` and the index of the
cell. -/

/-- A layout for the examples: slots interleaved, the cells of slot `s` at offset `s`
with stride `wpp`. -/
def interleaved_layout (wpp i : Nat) : Nat := i % wpp

/-- A layout for the examples: slots in blocks, slot `s` owning the `wpp` cells from
`s * wpp` on. -/
def block_layout (wpp i : Nat) : Nat := i / wpp

/-- Modelled from the spec: part of `clear_non_champ_weights`, whose body is not in the
sources. Zeroes the cells of one slot; `i` is the index of the first cell of the list
and `slot_of` gives the slot of a cell. -/
def clear_slot_from {W : Type} [Zero W] (slot_of : Nat → Nat) (slot : Nat) :
    Nat → List W → List W
  | _, [] => []
  | i, w :: ws => (if slot_of i = slot then 0 else w) :: clear_slot_from slot_of slot (i + 1) ws

/-- Modelled from the spec: part of `clear_non_champ_weights`, whose body is not in the
sources. Zeroes every cell of the weight array that belongs to `slot`. -/
def clear_slot {W : Type} [Zero W] (slot_of_cell : Nat → Nat → Nat) (weights : List W)
    (slot wpp : Nat) : List W :=
  clear_slot_from (slot_of_cell wpp) slot 0 weights

/-- Modelled from the spec: the body of
`clear_non_champ_weights(dense_parameters& weights, uint32_t total, uint32_t& wpp)` is
not in the sources. The spec: it "zeroes every weight-array cell belonging to a
non-champion slot range", where "`wpp` determines the stride between logical slots in
the physical array". The slots `1, ..., total - 1` are cleared one after the other;
the result is the weight array after the call. -/
def clear_non_champ_weights {W : Type} [Zero W] (slot_of_cell : Nat → Nat → Nat)
    (weights : List W) (total wpp : Nat) : List W :=
  (List.range' 1 (total - 1)).foldl (fun w slot => clear_slot slot_of_cell w slot wpp) weights

/-! ## `update_champ` -/

/-- Modelled from the spec: `estimator_config` and its operations are not in the
sources. Resetting an estimator to "the no observations state" empties its
accumulated statistics and keeps its parameters. -/
def estimator_config.reset (e : estimator_config) : estimator_config :=
  { e with statistics := [] }

/-- Modelled from the spec: part of `update_champ`, whose body is not in the sources.
Resetting the statistic of a challenger's estimator. -/
def aml_estimator.reset (e : aml_estimator) : aml_estimator :=
  { e with base := e.base.reset }

/-- Modelled from the spec: part of `update_champ`, whose body is not in the sources.
The test made for live slot `slot`: the estimator pair of the slot
is `<challenger_estimator, champ_estimator>` (the champion's horizon for that
challenger), the challenger is marked `eligible_to_inactivate`, and
`better(lb_trick, challenger, champ)` holds. `better` is declared in the header
without a body and is a parameter. -/
def challenger_wins (better : Bool → aml_estimator → estimator_config → Bool)
    (lb_trick : Bool) (estimators : List (aml_estimator × estimator_config)) (slot : Nat) :
    Bool :=
  match estimators[slot]? with
  | none => false
  | some (challenger, champ) =>
    challenger.eligible_to_inactivate && better lb_trick challenger champ

/-- Modelled from the spec: part of `update_champ`, whose body is not in the sources.
The loop over the live slots `slot, slot + 1, ..., slot + n - 1`: the first one, in
ascending order, whose challenger wins. -/
def first_winner_from (better : Bool → aml_estimator → estimator_config → Bool)
    (lb_trick : Bool) (estimators : List (aml_estimator × estimator_config)) :
    Nat → Nat → Option Nat
  | _, 0 => none
  | slot, n + 1 =>
    if challenger_wins better lb_trick estimators slot then some slot
    else first_winner_from better lb_trick estimators (slot + 1) n

/-- Modelled from the spec: part of `update_champ`, whose body is not in the sources.
The first live slot after slot 0 (the champion's), in ascending order, whose
challenger wins. -/
def first_winner (better : Bool → aml_estimator → estimator_config → Bool)
    (lb_trick : Bool) (estimators : List (aml_estimator × estimator_config)) : Option Nat :=
  first_winner_from better lb_trick estimators 1 (estimators.length - 1)

/-- Modelled from the spec: part of `update_champ`, whose body is not in the sources.
Resets every estimator pair but the one in slot 0; `i` is the slot of the first
pair of the list. -/
def reset_non_champ : Nat → List (aml_estimator × estimator_config) →
    List (aml_estimator × estimator_config)
  | _, [] => []
  | i, p :: ps =>
    (if i = 0 then p else (p.1.reset, p.2.reset)) :: reset_non_champ (i + 1) ps

/-- Modelled from the spec: part of `update_champ`, whose body is not in the sources.
The champion transition ("moves exactly one config's estimator horizon to slot 0
while all other live estimators are reset"): the pairs of slot 0 and of the winning
slot change places, then every pair outside slot 0 is reset. -/
def promote (winner : Nat) (estimators : List (aml_estimator × estimator_config)) :
    List (aml_estimator × estimator_config) :=
  match estimators[0]?, estimators[winner]? with
  | some c, some w => reset_non_champ 0 ((estimators.set 0 w).set winner c)
  | _, _ => estimators

/-- Modelled from the spec: the body of `interaction_config_manager::update_champ` is
not in the sources. The spec: "for every Live, non-champion estimator marked
`eligible_to_inactivate`, compares it against the champion's horizon estimator via
`better(lb_trick, challenger, champion)`. The first challenger (in ascending slot
order) found strictly better becomes the new champion: its weight offset is swapped
into slot 0, `total_champ_switches` increments, all OTHER live estimators are
invalidated", and leases are left as they are. `total_champ_switches` is a `uint64_t`,
so the increment is modulo `2 ^ 64`. The effect on the weight array is not part of
this model. -/
def update_champ {P W : Type} (better : Bool → aml_estimator → estimator_config → Bool)
    (s : interaction_config_manager P W) : interaction_config_manager P W :=
  match first_winner better s._lb_trick s.estimators with
  | none => s
  | some winner =>
    { s with
      total_champ_switches := (s.total_champ_switches + 1) % 2 ^ 64
      estimators := promote winner s.estimators }

/-- A comparator for the examples: the challenger is better when its `alpha` field is
larger than the champion's. -/
def example_better : Bool → aml_estimator → estimator_config → Bool :=
  fun _ challenger champ => decide (champ.alpha < challenger.base.alpha)

/-- An estimator pair for the examples: challenger with parameter `a` for config `i`,
eligibility flag `e`, against a champion horizon with parameter `b`. -/
def example_pair (i a : Nat) (e : Bool) (b : Nat) : aml_estimator × estimator_config :=
  ({ base := { alpha := a, tau := 0, statistics := [1, 2] }, config_index := i,
     eligible_to_inactivate := e, live_interactions := [[65, 66]] },
   { alpha := b, tau := 0, statistics := [3] })

/-- A manager for the examples, with three champion switches behind it and the given
estimator pool. -/
def example_manager (estimators : List (aml_estimator × estimator_config)) :
    interaction_config_manager Int Int :=
  { total_champ_switches := 3
    total_learn_count := 40
    current_champ := 0
    global_lease := 10
    max_live_configs := 4
    priority_challengers := 1
    interaction_type := "quadratic"
    weights := [0, 0, 0, 0, 0, 0, 0, 0]
    automl_significance_level := 0
    automl_estimator_decay := 0
    wpp := 4
    _lb_trick := false
    _ccb_on := false
    per_live_model_state_double := []
    per_live_model_state_uint64 := []
    ns_counter := [(65, 2), (66, 1)]
    configs := [
      { exclusions := [], lease := 10, state := config_state.Live },
      { exclusions := [[65, 65], [65, 66]], lease := 7, state := config_state.Live },
      { exclusions := [[66, 66]], lease := 0, state := config_state.Removed },
      exclusion_config.ctor]
    estimators := estimators
    index_queue := [] }

/-! ## Persistence: `write_model_field` and `read_model_field`

The header declares four overloads of each function; their bodies, `io_buf` and the
serialization of numbers are not in the sources. The `size_t` each function returns
(a byte count), the name argument and the text-mode flag of the writers are not
modelled. -/

/-- Modelled from the spec: `io_buf` is not in the sources. The spec: "an
append-only/read-sequential binary buffer abstraction exposing
`write_field(bytes) -> size`, `read_field() -> bytes`", treated as "opaque
length-prefixed record I/O": the buffer is the sequence of the records written and
not yet read, each record a sequence of bytes. -/
abbrev io_buf := List (List Nat)

/-- Modelled from the spec: `write_field(bytes)` appends one record. -/
def write_field (io : io_buf) (bytes : List Nat) : io_buf := io ++ [bytes]

/-- Modelled from the spec: `read_field()` takes the first record off the buffer and
fails on an empty buffer. -/
def read_field : io_buf → Option (List Nat × io_buf)
  | [] => none
  | r :: io => some (r, io)

/-- Modelled from the spec: the host's numeric serialization of an unsigned number in
`width` bytes, taken here to be least significant byte first. -/
def to_bytes : Nat → Nat → List Nat
  | 0, _ => []
  | width + 1, n => n % 256 :: to_bytes width (n / 256)

/-- Modelled from the spec: persistence code that is not in the sources.
The number a sequence of bytes stands for, least significant byte first. -/
def of_bytes : List Nat → Nat
  | [] => 0
  | b :: bs => b + 256 * of_bytes bs

/-- Modelled from the spec: persistence code that is not in the sources.
One unsigned number of `width` bytes as a record. -/
def enc_uint (width n : Nat) : io_buf := write_field [] (to_bytes width n)

/-- Modelled from the spec: persistence code that is not in the sources.
Reads one unsigned number of `width` bytes; a record of another size or with a
value that is not a byte is malformed. -/
def read_uint (width : Nat) (io : io_buf) : Option (Nat × io_buf) :=
  match read_field io with
  | none => none
  | some (r, io) =>
    if r.length = width ∧ ∀ b ∈ r, b < 256 then some (of_bytes r, io) else none

/-- Modelled from the spec: persistence code that is not in the sources.
A `bool` as one byte. -/
def enc_bool (b : Bool) : io_buf := enc_uint 1 (if b then 1 else 0)

/-- Modelled from the spec: persistence code that is not in the sources.
Reads a `bool`; a byte other than 0 and 1 is malformed. -/
def read_bool (io : io_buf) : Option (Bool × io_buf) :=
  match read_uint 1 io with
  | none => none
  | some (n, io) => if n = 0 then some (false, io) else if n = 1 then some (true, io) else none

/-- Modelled from the spec: persistence code that is not in the sources.
The enumerator value of a `config_state`. -/
def config_state.to_nat : config_state → Nat
  | config_state.New => 0
  | config_state.Live => 1
  | config_state.Inactive => 2
  | config_state.Removed => 3

/-- Modelled from the spec: persistence code that is not in the sources.
A `config_state` as a four-byte number. -/
def enc_config_state (s : config_state) : io_buf := enc_uint 4 s.to_nat

/-- Modelled from the spec: persistence code that is not in the sources.
Reads a `config_state`; a number that is no enumerator's value is malformed. -/
def read_config_state (io : io_buf) : Option (config_state × io_buf) :=
  match read_uint 4 io with
  | none => none
  | some (n, io) =>
    match n with
    | 0 => some (config_state.New, io)
    | 1 => some (config_state.Live, io)
    | 2 => some (config_state.Inactive, io)
    | 3 => some (config_state.Removed, io)
    | _ => none

/-- Modelled from the spec: persistence code that is not in the sources.
The enumerator value of an `automl_state`. -/
def automl_state.to_nat : automl_state → Nat
  | automl_state.Collecting => 0
  | automl_state.Experimenting => 1

/-- Modelled from the spec: persistence code that is not in the sources.
An `automl_state` as a four-byte number. -/
def enc_automl_state (s : automl_state) : io_buf := enc_uint 4 s.to_nat

/-- Modelled from the spec: persistence code that is not in the sources.
Reads an `automl_state`; a number that is no enumerator's value is malformed. -/
def read_automl_state (io : io_buf) : Option (automl_state × io_buf) :=
  match read_uint 4 io with
  | none => none
  | some (n, io) =>
    match n with
    | 0 => some (automl_state.Collecting, io)
    | 1 => some (automl_state.Experimenting, io)
    | _ => none

/-- Modelled from the spec: persistence code that is not in the sources.
The elements of a container one after the other. -/
def enc_all {α : Type} (enc : α → io_buf) : List α → io_buf
  | [] => []
  | x :: xs => enc x ++ enc_all enc xs

/-- Modelled from the spec: persistence code that is not in the sources.
A container: the number of its elements (a `size_t`), then the elements. -/
def enc_list {α : Type} (enc : α → io_buf) (xs : List α) : io_buf :=
  enc_uint 8 xs.length ++ enc_all enc xs

/-- Modelled from the spec: persistence code that is not in the sources.
Reads `n` elements. -/
def read_n {α : Type} (read : io_buf → Option (α × io_buf)) :
    Nat → io_buf → Option (List α × io_buf)
  | 0, io => some ([], io)
  | n + 1, io =>
    match read io with
    | none => none
    | some (x, io) =>
      match read_n read n io with
      | none => none
      | some (xs, io) => some (x :: xs, io)

/-- Modelled from the spec: persistence code that is not in the sources.
Reads a container: the number of elements, then that many elements. -/
def read_list {α : Type} (read : io_buf → Option (α × io_buf)) (io : io_buf) :
    Option (List α × io_buf) :=
  match read_uint 8 io with
  | none => none
  | some (n, io) => read_n read n io

/-- Modelled from the spec: persistence code that is not in the sources.
One interaction (`std::vector<namespace_index>`): a container of bytes. -/
def enc_interaction (v : interaction_t) : io_buf := enc_list (enc_uint 1) v

/-- Modelled from the spec: persistence code that is not in the sources.
Reads one interaction. -/
def read_interaction (io : io_buf) : Option (interaction_t × io_buf) :=
  read_list (read_uint 1) io

/-- Modelled from the spec: `write_model_field(io_buf&, const exclusion_config&, ...)`,
body not in the sources. The spec: "for each config: exclusion set (ordered list of
interaction tuples), lease, state enum". -/
def enc_exclusion_config (c : exclusion_config) : io_buf :=
  enc_list enc_interaction c.exclusions ++ enc_uint 8 c.lease ++ enc_config_state c.state

/-- Modelled from the spec: persistence code that is not in the sources.
See `enc_exclusion_config`: the writer appends the encoding to the buffer. -/
def write_model_field_exclusion_config (io : io_buf) (c : exclusion_config) : io_buf :=
  io ++ enc_exclusion_config c

/-- Modelled from the spec: `read_model_field(io_buf&, exclusion_config&)`, body not
in the sources. The fields are read in the order they were written; the interactions
read are inserted into the set one by one. -/
def read_model_field_exclusion_config (io : io_buf) : Option (exclusion_config × io_buf) :=
  match read_list read_interaction io with
  | none => none
  | some (xs, io) =>
    match read_uint 8 io with
    | none => none
    | some (lease, io) =>
      match read_config_state io with
      | none => none
      | some (state, io) =>
        some ({ (exclusion_config.ctor lease).insert_all xs with state := state }, io)

/-- Modelled from the spec: persistence code that is not in the sources.
The statistic of an estimator: "alpha, tau, accumulated sufficient statistics",
each `double` as the eight bytes of its bit pattern. -/
def enc_estimator_config (e : estimator_config) : io_buf :=
  enc_uint 8 e.alpha ++ enc_uint 8 e.tau ++ enc_list (enc_uint 8) e.statistics

/-- Modelled from the spec: persistence code that is not in the sources.
Reads the statistic of an estimator. -/
def read_estimator_config (io : io_buf) : Option (estimator_config × io_buf) :=
  match read_uint 8 io with
  | none => none
  | some (alpha, io) =>
    match read_uint 8 io with
    | none => none
    | some (tau, io) =>
      match read_list (read_uint 8) io with
      | none => none
      | some (statistics, io) =>
        some ({ alpha := alpha, tau := tau, statistics := statistics }, io)

/-- Modelled from the spec: `write_model_field(io_buf&, const aml_estimator&, ...)`,
body not in the sources. The spec: "underlying statistic parameters (alpha, tau,
accumulated sufficient statistics), config handle, eligibility flag, cached
live-interaction list". -/
def enc_aml_estimator (a : aml_estimator) : io_buf :=
  enc_estimator_config a.base ++ enc_uint 8 a.config_index ++
    enc_bool a.eligible_to_inactivate ++ enc_list enc_interaction a.live_interactions

/-- Modelled from the spec: persistence code that is not in the sources.
See `enc_aml_estimator`: the writer appends the encoding to the buffer. -/
def write_model_field_aml_estimator (io : io_buf) (a : aml_estimator) : io_buf :=
  io ++ enc_aml_estimator a

/-- Modelled from the spec: `read_model_field(io_buf&, aml_estimator&)`, body not in
the sources. -/
def read_model_field_aml_estimator (io : io_buf) : Option (aml_estimator × io_buf) :=
  match read_estimator_config io with
  | none => none
  | some (base, io) =>
    match read_uint 8 io with
    | none => none
    | some (config_index, io) =>
      match read_bool io with
      | none => none
      | some (eligible, io) =>
        match read_list read_interaction io with
        | none => none
        | some (live, io) => some ((aml_estimator.ctor base config_index eligible live).1, io)

/-- Modelled from the spec: persistence code that is not in the sources.
One estimator pair `<challenger_estimator, champ_estimator>`. -/
def enc_estimator_pair (p : aml_estimator × estimator_config) : io_buf :=
  enc_aml_estimator p.1 ++ enc_estimator_config p.2

/-- Modelled from the spec: persistence code that is not in the sources.
Reads one estimator pair. -/
def read_estimator_pair (io : io_buf) :
    Option ((aml_estimator × estimator_config) × io_buf) :=
  match read_model_field_aml_estimator io with
  | none => none
  | some (a, io) =>
    match read_estimator_config io with
    | none => none
    | some (e, io) => some ((a, e), io)

/-- Modelled from the spec: persistence code that is not in the sources.
One entry of `ns_counter`: the namespace (a byte) and its count. -/
def enc_ns_count (kv : namespace_index × Nat) : io_buf :=
  enc_uint 1 kv.1 ++ enc_uint 8 kv.2

/-- Modelled from the spec: persistence code that is not in the sources.
Reads one entry of `ns_counter`. -/
def read_ns_count (io : io_buf) : Option ((namespace_index × Nat) × io_buf) :=
  match read_uint 1 io with
  | none => none
  | some (k, io) =>
    match read_uint 8 io with
    | none => none
    | some (v, io) => some ((k, v), io)

/-- `m[k] = v` on a `std::map<namespace_index, uint64_t>`, the map being the list of
its entries in increasing order of the keys. -/
def map_assign (k : namespace_index) (v : Nat) :
    List (namespace_index × Nat) → List (namespace_index × Nat)
  | [] => [(k, v)]
  | (k2, v2) :: m =>
    if k < k2 then (k, v) :: (k2, v2) :: m
    else if k2 < k then (k2, v2) :: map_assign k v m
    else (k, v) :: m

/-- A list is the content of a `std::map`: strictly increasing keys. -/
def map_sorted (m : List (namespace_index × Nat)) : Prop :=
  m.Pairwise (fun a b => a.1 < b.1)

/-- Modelled from the spec: `write_model_field(io_buf&, const
interaction_config_manager&, ...)`, body not in the sources. The spec lists, in this
order, "for each config ...", "for each estimator pair ...", and the "ConfigManager
scalars: total_champ_switches, total_learn_count, current champion handle, namespace
counter snapshot". -/
def enc_interaction_config_manager {P W : Type} (cm : interaction_config_manager P W) :
    io_buf :=
  enc_list enc_exclusion_config cm.configs ++ enc_list enc_estimator_pair cm.estimators ++
    enc_uint 8 cm.total_champ_switches ++ enc_uint 8 cm.total_learn_count ++
    enc_uint 8 cm.current_champ ++ enc_list enc_ns_count cm.ns_counter

/-- Modelled from the spec: persistence code that is not in the sources.
See `enc_interaction_config_manager`: the writer appends the encoding to the
buffer. -/
def write_model_field_interaction_config_manager {P W : Type} (io : io_buf)
    (cm : interaction_config_manager P W) : io_buf :=
  io ++ enc_interaction_config_manager cm

/-- Modelled from the spec: `read_model_field(io_buf&, interaction_config_manager&)`,
body not in the sources. The fields are read in the order they were written, into the
manager `cm` passed by reference. `current_champ` is a `const` member: the handle
stored is read and `cm` keeps its own. The entries of the namespace counter are
assigned to an empty map one by one. Members that are not persisted stay as they are
in `cm`. -/
def read_model_field_interaction_config_manager {P W : Type} (io : io_buf)
    (cm : interaction_config_manager P W) : Option (interaction_config_manager P W × io_buf) :=
  match read_list read_model_field_exclusion_config io with
  | none => none
  | some (configs, io) =>
    match read_list read_estimator_pair io with
    | none => none
    | some (estimators, io) =>
      match read_uint 8 io with
      | none => none
      | some (total_champ_switches, io) =>
        match read_uint 8 io with
        | none => none
        | some (total_learn_count, io) =>
          match read_uint 8 io with
          | none => none
          | some (_, io) =>
            match read_list read_ns_count io with
            | none => none
            | some (ns, io) =>
              some ({ cm with
                      total_champ_switches := total_champ_switches
                      total_learn_count := total_learn_count
                      ns_counter := ns.foldl (fun m kv => map_assign kv.1 kv.2 m) []
                      configs := configs
                      estimators := estimators }, io)

/-- Modelled from the spec: `write_model_field(io_buf&, const automl<CMType>&, ...)`,
body not in the sources. The spec: first the "top-level state enum
(Collecting/Experimenting)", then the fields of the manager. -/
def enc_automl {P W Logger Learner : Type}
    (aml : automl (interaction_config_manager P W) Logger Learner) : io_buf :=
  enc_automl_state aml.current_state ++ enc_interaction_config_manager aml.cm

/-- Modelled from the spec: persistence code that is not in the sources.
See `enc_automl`: the writer appends the encoding to the buffer. -/
def write_model_field_automl {P W Logger Learner : Type} (io : io_buf)
    (aml : automl (interaction_config_manager P W) Logger Learner) : io_buf :=
  io ++ enc_automl aml

/-- Modelled from the spec: `read_model_field(io_buf&, automl<CMType>&)`, body not in
the sources: reads the state, then the manager, into the driver `aml` passed by
reference. -/
def read_model_field_automl {P W Logger Learner : Type} (io : io_buf)
    (aml : automl (interaction_config_manager P W) Logger Learner) :
    Option (automl (interaction_config_manager P W) Logger Learner × io_buf) :=
  match read_automl_state io with
  | none => none
  | some (st, io) =>
    match read_model_field_interaction_config_manager io aml.cm with
    | none => none
    | some (cm, io) => some ({ aml with current_state := st, cm := cm }, io)

/-- An interaction whose size and entries fit their types (`size_t`, `unsigned char`). -/
def interaction_fits (v : interaction_t) : Prop :=
  v.length < 2 ^ 64 ∧ ∀ n ∈ v, n < 256

/-- An `exclusion_config` is a value of its C++ type: the set is in order and the
numbers fit their types. -/
def exclusion_config_fits (c : exclusion_config) : Prop :=
  set_sorted c.exclusions ∧ c.exclusions.length < 2 ^ 64 ∧
    (∀ v ∈ c.exclusions, interaction_fits v) ∧ c.lease < 2 ^ 64

/-- An `estimator_config` whose numbers fit their types. -/
def estimator_config_fits (e : estimator_config) : Prop :=
  e.alpha < 2 ^ 64 ∧ e.tau < 2 ^ 64 ∧ e.statistics.length < 2 ^ 64 ∧
    ∀ d ∈ e.statistics, d < 2 ^ 64

/-- An `aml_estimator` whose numbers fit their types. -/
def aml_estimator_fits (a : aml_estimator) : Prop :=
  estimator_config_fits a.base ∧ a.config_index < 2 ^ 64 ∧
    a.live_interactions.length < 2 ^ 64 ∧ ∀ v ∈ a.live_interactions, interaction_fits v

/-- The persisted members of a manager are values of their C++ types. -/
def manager_fits {P W : Type} (cm : interaction_config_manager P W) : Prop :=
  cm.configs.length < 2 ^ 64 ∧ (∀ c ∈ cm.configs, exclusion_config_fits c) ∧
  cm.estimators.length < 2 ^ 64 ∧
  (∀ p ∈ cm.estimators, aml_estimator_fits p.1 ∧ estimator_config_fits p.2) ∧
  cm.total_champ_switches < 2 ^ 64 ∧ cm.total_learn_count < 2 ^ 64 ∧
  cm.current_champ < 2 ^ 64 ∧
  map_sorted cm.ns_counter ∧ cm.ns_counter.length < 2 ^ 64 ∧
  ∀ kv ∈ cm.ns_counter, kv.1 < 256 ∧ kv.2 < 2 ^ 64

/-- A driver for the examples: in state `st`, with manager `cm`. -/
def example_driver (st : automl_state) (cm : interaction_config_manager Int Int) :
    automl (interaction_config_manager Int Int) Unit Unit :=
  { (automl.ctor cm () false) with current_state := st }

/-- A newly constructed manager for the examples, as the target of a restore. -/
def example_fresh_manager : interaction_config_manager Int Int :=
  interaction_config_manager.members_init
    { global_lease := 10
      max_live_configs := 4
      priority_challengers := 1
      interaction_type := "quadratic"
      weights := [0, 0, 0, 0, 0, 0, 0, 0]
      automl_significance_level := 0
      automl_estimator_decay := 0
      wpp := 4
      _lb_trick := false
      _ccb_on := false }

/-! ## Theorems

### Constructors -/


/-- C4: a newly constructed automl driver is in state `Collecting` (so it is not
`Experimenting`), has `debug_reverse_learning_order = false`, and its
`should_save_predict_only_model` is the flag given to the constructor. -/
theorem automl_ctor_initial_state {CM Logger Learner : Type} (cm : CM) (logger : Logger)
    (predict_only_model : Bool) :
    (automl.ctor cm logger predict_only_model : automl CM Logger Learner).current_state
        = automl_state.Collecting ∧
    (automl.ctor cm logger predict_only_model : automl CM Logger Learner).current_state
        ≠ automl_state.Experimenting ∧
    (automl.ctor cm logger predict_only_model :
        automl CM Logger Learner).debug_reverse_learning_order = false ∧
    (automl.ctor cm logger predict_only_model :
        automl CM Logger Learner).should_save_predict_only_model = predict_only_model := by
  refine ⟨rfl, ?_, rfl, rfl⟩
  simp [automl.ctor]

/-- C5: `exclusion_config(L)` has `lease = L`, `state = New` and an empty exclusion
set; constructed without an argument its lease is 10. -/
theorem exclusion_config_ctor_fields (L : Nat) :
    (exclusion_config.ctor L).lease = L ∧
    (exclusion_config.ctor L).state = config_state.New ∧
    (exclusion_config.ctor L).exclusions = [] ∧
    (exclusion_config.ctor).lease = 10 ∧
    (exclusion_config.ctor).state = config_state.New ∧
    (exclusion_config.ctor).exclusions = [] :=
  ⟨rfl, rfl, rfl, rfl, rfl, rfl⟩

/-- C10: the four-argument constructor stores `sc`, `i`, `e` and a copy of `v`, and
leaves the caller's `v` as it was; the other two constructors give `config_index = 0`,
`eligible_to_inactivate = false` and no live interactions. -/
theorem aml_estimator_ctor_fields (sc : estimator_config) (i : Nat) (e : Bool)
    (v : interaction_vec_t) (base0 : estimator_config)
    (base_ctor : double → double → estimator_config) (alpha tau : double) :
    ((aml_estimator.ctor sc i e v).1.base = sc ∧
      (aml_estimator.ctor sc i e v).1.config_index = i ∧
      (aml_estimator.ctor sc i e v).1.eligible_to_inactivate = e ∧
      (aml_estimator.ctor sc i e v).1.live_interactions = v ∧
      (aml_estimator.ctor sc i e v).2 = v) ∧
    ((aml_estimator.ctor_default base0).config_index = 0 ∧
      (aml_estimator.ctor_default base0).eligible_to_inactivate = false ∧
      (aml_estimator.ctor_default base0).live_interactions = []) ∧
    ((aml_estimator.ctor_alpha_tau base_ctor alpha tau).config_index = 0 ∧
      (aml_estimator.ctor_alpha_tau base_ctor alpha tau).eligible_to_inactivate = false ∧
      (aml_estimator.ctor_alpha_tau base_ctor alpha tau).live_interactions = []) :=
  ⟨⟨rfl, rfl, rfl, rfl, rfl⟩, ⟨rfl, rfl, rfl⟩, ⟨rfl, rfl, rfl⟩⟩

/-! ### The exclusion set -/

theorem vec_lt_irrefl (a : List Nat) : vec_lt a a = false := by
  induction a with
  | nil => rfl
  | cons x l ih => simp [vec_lt, ih]

theorem vec_lt_trans : ∀ (a b c : List Nat), vec_lt a b = true → vec_lt b c = true →
    vec_lt a c = true
  | _, [], _, h, _ => by simp [vec_lt] at h
  | _, _ :: _, [], _, h => by simp [vec_lt] at h
  | [], _ :: _, _ :: _, _, _ => by simp [vec_lt]
  | x :: l, y :: m, z :: n, h₁, h₂ => by
    simp only [vec_lt] at h₁ h₂ ⊢
    split_ifs at h₁ h₂ ⊢ <;> first | rfl | omega | exact vec_lt_trans l m n h₁ h₂

theorem vec_lt_total : ∀ (a b : List Nat), vec_lt a b = false → vec_lt b a = false → a = b
  | [], [], _, _ => rfl
  | [], _ :: _, h, _ => by simp [vec_lt] at h
  | _ :: _, [], _, h => by simp [vec_lt] at h
  | x :: l, y :: m, h₁, h₂ => by
    simp only [vec_lt] at h₁ h₂
    split_ifs at h₁ h₂
    have hxy : x = y := by omega
    subst hxy
    rw [vec_lt_total l m h₁ h₂]

theorem mem_set_insert (x i : interaction_t) (s : List interaction_t) :
    i ∈ set_insert x s ↔ i = x ∨ i ∈ s := by
  induction s with
  | nil => simp [set_insert]
  | cons y ys ih =>
    simp only [set_insert]
    split_ifs with h₁ h₂
    · simp
    · simp [ih]; tauto
    · have : x = y := vec_lt_total x y (by simpa using h₁) (by simpa using h₂)
      subst this
      simp

theorem set_insert_sorted (x : interaction_t) (s : List interaction_t) (hs : set_sorted s) :
    set_sorted (set_insert x s) := by
  induction s with
  | nil => simp [set_insert, set_sorted]
  | cons y ys ih =>
    unfold set_sorted at hs ih ⊢
    rw [List.pairwise_cons] at hs
    simp only [set_insert]
    split_ifs with h₁ h₂
    · refine List.pairwise_cons.2 ⟨?_, List.pairwise_cons.2 hs⟩
      intro z hz
      rcases List.mem_cons.1 hz with rfl | hz
      · exact h₁
      · exact vec_lt_trans _ _ _ h₁ (hs.1 z hz)
    · refine List.pairwise_cons.2 ⟨?_, ih hs.2⟩
      intro z hz
      rcases (mem_set_insert x z ys).1 hz with rfl | hz
      · exact h₂
      · exact hs.1 z hz
    · exact List.pairwise_cons.2 hs

theorem set_sorted_nodup (s : List interaction_t) (hs : set_sorted s) : s.Nodup := by
  refine List.Pairwise.imp ?_ hs
  intro a b h hab
  subst hab
  rw [vec_lt_irrefl] at h
  exact Bool.noConfusion h

theorem set_sorted_ext (s t : List interaction_t) (hs : set_sorted s) (ht : set_sorted t)
    (h : ∀ i, i ∈ s ↔ i ∈ t) : s = t := by
  have hp : s.Perm t :=
    (List.perm_ext_iff_of_nodup (set_sorted_nodup s hs) (set_sorted_nodup t ht)).2 h
  haveI : IsAntisymm interaction_t (fun a b => vec_lt a b = true) :=
    ⟨fun a b h₁ h₂ => by
      have := vec_lt_trans a b a h₁ h₂
      rw [vec_lt_irrefl] at this
      exact Bool.noConfusion this⟩
  exact List.eq_of_perm_of_sorted hp hs ht

theorem mem_insert_all (xs : List interaction_t) (c : exclusion_config) (i : interaction_t) :
    i ∈ (c.insert_all xs).exclusions ↔ i ∈ c.exclusions ∨ i ∈ xs := by
  induction xs generalizing c with
  | nil => simp [exclusion_config.insert_all]
  | cons x xs ih =>
    have := ih (c.insert x)
    simp only [exclusion_config.insert_all, List.foldl_cons] at this ⊢
    rw [this]
    simp only [exclusion_config.insert, mem_set_insert, List.mem_cons]
    tauto

theorem insert_all_sorted (xs : List interaction_t) (c : exclusion_config)
    (hs : set_sorted c.exclusions) : set_sorted (c.insert_all xs).exclusions := by
  induction xs generalizing c with
  | nil => simpa [exclusion_config.insert_all] using hs
  | cons x xs ih => exact ih (c.insert x) (set_insert_sorted x c.exclusions hs)

theorem set_insert_idem (x : interaction_t) (s : List interaction_t) (hs : set_sorted s) :
    set_insert x (set_insert x s) = set_insert x s := by
  apply set_sorted_ext _ _ (set_insert_sorted x _ (set_insert_sorted x s hs))
    (set_insert_sorted x s hs)
  intro i
  simp only [mem_set_insert]
  tauto

theorem set_insert_comm (x y : interaction_t) (s : List interaction_t) (hs : set_sorted s) :
    set_insert y (set_insert x s) = set_insert x (set_insert y s) := by
  apply set_sorted_ext _ _ (set_insert_sorted y _ (set_insert_sorted x s hs))
    (set_insert_sorted x _ (set_insert_sorted y s hs))
  intro i
  simp only [mem_set_insert]
  tauto

/-- C6: the exclusions of an `exclusion_config` are a set. Whatever sequence `xs` of
interactions is inserted into a newly constructed config, the set holds exactly the
interactions that occur in `xs`, each once and in increasing order; two such sets
(built from `xs` and from `ys`) are equal exactly when `xs` and `ys` have the same
interactions, which is exactly when the sets have the same elements: order and
repetition of the insertions do not matter. In particular inserting an interaction a
second time changes nothing, and two insertions give the same config in either
order. -/
theorem exclusions_is_a_set (L : Nat) (xs ys : List interaction_t) :
    (∀ i, i ∈ ((exclusion_config.ctor L).insert_all xs).exclusions ↔ i ∈ xs) ∧
    ((exclusion_config.ctor L).insert_all xs).exclusions.Nodup ∧
    set_sorted ((exclusion_config.ctor L).insert_all xs).exclusions ∧
    (((exclusion_config.ctor L).insert_all xs).exclusions
        = ((exclusion_config.ctor L).insert_all ys).exclusions ↔ ∀ i, i ∈ xs ↔ i ∈ ys) ∧
    (((exclusion_config.ctor L).insert_all xs).exclusions
        = ((exclusion_config.ctor L).insert_all ys).exclusions ↔
      ∀ i, i ∈ ((exclusion_config.ctor L).insert_all xs).exclusions ↔
        i ∈ ((exclusion_config.ctor L).insert_all ys).exclusions) ∧
    (∀ x, (((exclusion_config.ctor L).insert_all xs).insert x).insert x
        = ((exclusion_config.ctor L).insert_all xs).insert x) ∧
    (∀ x y, (((exclusion_config.ctor L).insert_all xs).insert x).insert y
        = (((exclusion_config.ctor L).insert_all xs).insert y).insert x) := by
  have hnil : set_sorted (exclusion_config.ctor L).exclusions := List.Pairwise.nil
  have hmem : ∀ (zs : List interaction_t) (i : interaction_t),
      i ∈ ((exclusion_config.ctor L).insert_all zs).exclusions ↔ i ∈ zs := by
    intro zs i
    rw [mem_insert_all]
    simp [exclusion_config.ctor]
  have hsx := insert_all_sorted xs _ hnil
  have hsy := insert_all_sorted ys _ hnil
  refine ⟨hmem xs, set_sorted_nodup _ hsx, hsx, ?_, ?_, ?_, ?_⟩
  · constructor
    · intro h i
      rw [← hmem xs i, ← hmem ys i, h]
    · intro h
      apply set_sorted_ext _ _ hsx hsy
      intro i
      rw [hmem xs i, hmem ys i]
      exact h i
  · constructor
    · intro h i
      rw [h]
    · intro h
      exact set_sorted_ext _ _ hsx hsy h
  · intro x
    simp only [exclusion_config.insert]
    rw [set_insert_idem x _ hsx]
  · intro x y
    simp only [exclusion_config.insert]
    rw [set_insert_comm x y _ hsx]

/-! ### The index queue and `choose` -/

/-- The fuel given to `push_heap_loop` never cuts the loop short: any two amounts of
at least `hole` give the same result. -/
theorem push_heap_loop_fuel {α : Type} (lt : α → α → Bool) (value : α) (fuel fuel2 : Nat)
    (vec : List α) (hole : Nat) (h1 : hole ≤ fuel) (h2 : hole ≤ fuel2) :
    push_heap_loop lt value fuel vec hole = push_heap_loop lt value fuel2 vec hole := by
  induction fuel generalizing fuel2 vec hole with
  | zero =>
    have h0 : hole = 0 := by omega
    subst h0
    cases fuel2 with
    | zero => rfl
    | succ k =>
      simp only [push_heap_loop]
      cases vec[(0 - 1) / 2]? with
      | none => rfl
      | some parent => simp
  | succ fuel ih =>
    cases fuel2 with
    | zero =>
      have h0 : hole = 0 := by omega
      subst h0
      simp only [push_heap_loop]
      cases vec[(0 - 1) / 2]? with
      | none => rfl
      | some parent => simp
    | succ k =>
      simp only [push_heap_loop]
      cases vec[(hole - 1) / 2]? with
      | none => rfl
      | some parent =>
        simp only
        split_ifs with hc
        · exact ih k _ _ (by omega) (by omega)
        · rfl

/-- The fuel given to `adjust_heap_loop` never cuts the loop short: any two amounts of
at least `len - hole` give the same result. -/
theorem adjust_heap_loop_fuel {α : Type} (lt : α → α → Bool) (len fuel fuel2 : Nat)
    (vec : List α) (hole : Nat) (h1 : len ≤ fuel + hole) (h2 : len ≤ fuel2 + hole) :
    adjust_heap_loop lt len fuel vec hole = adjust_heap_loop lt len fuel2 vec hole := by
  induction fuel generalizing fuel2 vec hole with
  | zero =>
    have hc : ¬ hole < (len - 1) / 2 := by omega
    cases fuel2 with
    | zero => rfl
    | succ k => simp only [adjust_heap_loop, if_neg hc]
  | succ fuel ih =>
    cases fuel2 with
    | zero =>
      have hc : ¬ hole < (len - 1) / 2 := by omega
      simp only [adjust_heap_loop, if_neg hc]
    | succ k =>
      simp only [adjust_heap_loop]
      split_ifs with hc
      · cases vec[2 * (hole + 1)]? with
        | none => rfl
        | some right =>
          cases vec[2 * (hole + 1) - 1]? with
          | none => rfl
          | some left =>
            simp only
            split_ifs with hlt
            · exact ih k _ _ (by omega) (by omega)
            · exact ih k _ _ (by omega) (by omega)
      · rfl

theorem place_is_heap {α K : Type} [LinearOrder K] (key : α → K) (vec : List α)
    (hole : Nat) (value : α)
    (h1 : heap_except key vec hole)
    (h2 : ∀ i x, 0 < i → (i - 1) / 2 = hole → vec[i]? = some x → key x ≤ key value)
    (h3 : hole = 0 ∨ ∃ p, vec[(hole - 1) / 2]? = some p ∧ key value ≤ key p) :
    is_heap key (vec.set hole value) := by
  intro i hi x p hx hp
  by_cases hih : i = hole
  · subst hih
    have hne : i ≠ (i - 1) / 2 := by omega
    rw [List.getElem?_set_ne hne] at hp
    rcases h3 with h0 | ⟨p2, hp2, hle⟩
    · omega
    · rw [hp2] at hp
      have hpp : p2 = p := by simpa using hp
      subst hpp
      rw [List.getElem?_set] at hx
      simp only [if_true] at hx
      split_ifs at hx
      have hxv : value = x := by simpa using hx
      subst hxv
      exact hle
  · rw [List.getElem?_set_ne (Ne.symm hih)] at hx
    by_cases hph : (i - 1) / 2 = hole
    · rw [List.getElem?_set] at hp
      rw [if_pos hph.symm] at hp
      split_ifs at hp
      have hpv : value = p := by simpa using hp
      subst hpv
      exact h2 i x hi hph hx
    · rw [List.getElem?_set_ne (Ne.symm hph)] at hp
      exact h1.1 i hi hih hph x p hx hp

theorem push_heap_loop_is_heap {α K : Type} [LinearOrder K] (lt : α → α → Bool)
    (key : α → K) (ok : α → Prop)
    (hkey : ∀ a b, ok a → ok b → (lt a b = true ↔ key a < key b))
    (value : α) (hv : ok value) (fuel : Nat) (vec : List α) (hole : Nat)
    (hok : ∀ x ∈ vec, ok x) (hfuel : hole ≤ fuel) (hlen : hole < vec.length)
    (h1 : heap_except key vec hole)
    (h2 : ∀ i x, 0 < i → (i - 1) / 2 = hole → vec[i]? = some x → key x ≤ key value) :
    is_heap key (push_heap_loop lt value fuel vec hole) := by
  induction fuel generalizing vec hole with
  | zero =>
    have h0 : hole = 0 := by omega
    simp only [push_heap_loop]
    exact place_is_heap key vec hole value h1 h2 (Or.inl h0)
  | succ fuel ih =>
    have hplen : (hole - 1) / 2 < vec.length := by omega
    simp only [push_heap_loop, List.getElem?_eq_getElem hplen]
    have hpok : ok vec[(hole - 1) / 2] := hok _ (List.getElem_mem _)
    split_ifs with hc
    · -- the parent moves down
      obtain ⟨hpos, hlt⟩ := hc
      have hklt : key vec[(hole - 1) / 2] < key value := (hkey _ _ hpok hv).1 hlt
      have hpne : (hole - 1) / 2 ≠ hole := by omega
      apply ih
      · intro x hx
        rcases List.mem_or_eq_of_mem_set hx with h | h
        · exact hok x h
        · rw [h]; exact hpok
      · omega
      · simpa using hplen
      · refine ⟨?_, ?_⟩
        · intro i hi hih hip x q hx hq
          have hine : i ≠ hole := by
            intro h; subst h; exact hip rfl
          rw [List.getElem?_set_ne (Ne.symm hine)] at hx
          by_cases hph : (i - 1) / 2 = hole
          · rw [List.getElem?_set, if_pos hph.symm, if_pos hlen] at hq
            have hqv : vec[(hole - 1) / 2] = q := by simpa using hq
            rw [← hqv]
            exact h1.2 i x _ hi hph hpos hx (List.getElem?_eq_getElem hplen)
          · rw [List.getElem?_set_ne (Ne.symm hph)] at hq
            exact h1.1 i hi hine hph x q hx hq
        · intro i x g hi hip hppos hx hg
          have hgne : hole ≠ ((hole - 1) / 2 - 1) / 2 := by omega
          rw [List.getElem?_set_ne hgne] at hg
          have hpg : key vec[(hole - 1) / 2] ≤ key g :=
            h1.1 ((hole - 1) / 2) hppos hpne (by omega) _ g
              (List.getElem?_eq_getElem hplen) hg
          by_cases hih : i = hole
          · subst hih
            rw [List.getElem?_set_self hlen] at hx
            have hxv : vec[(i - 1) / 2] = x := by simpa using hx
            rw [← hxv]
            exact hpg
          · rw [List.getElem?_set_ne (Ne.symm hih)] at hx
            have := h1.1 i hi hih (by omega) x _ hx
              (by rw [hip]; exact List.getElem?_eq_getElem hplen)
            exact le_trans this hpg
      · intro i x hi hip hx
        by_cases hih : i = hole
        · subst hih
          rw [List.getElem?_set_self hlen] at hx
          have hxv : vec[(i - 1) / 2] = x := by simpa using hx
          rw [← hxv]
          exact le_of_lt hklt
        · rw [List.getElem?_set_ne (Ne.symm hih)] at hx
          have := h1.1 i hi hih (by omega) x _ hx
            (by rw [hip]; exact List.getElem?_eq_getElem hplen)
          exact le_trans this (le_of_lt hklt)
    · -- the value is placed
      apply place_is_heap key vec hole value h1 h2
      by_cases hpos : 0 < hole
      · right
        refine ⟨_, List.getElem?_eq_getElem hplen, ?_⟩
        have hnlt : ¬ lt vec[(hole - 1) / 2] value = true := fun h => hc ⟨hpos, h⟩
        have := (hkey _ _ hpok hv).not.1 hnlt
        exact not_lt.1 this
      · left; omega


theorem heap_top_is_max_aux {α K : Type} [LinearOrder K] (key : α → K) (vec : List α)
    (h : is_heap key vec) (t : α) (ht : vec[0]? = some t) :
    ∀ (n i : Nat) (x : α), i ≤ n → vec[i]? = some x → key x ≤ key t := by
  intro n
  induction n with
  | zero =>
    intro i x hi hx
    have hi0 : i = 0 := by omega
    subst hi0
    rw [ht] at hx
    have : t = x := by simpa using hx
    rw [this]
  | succ n ih =>
    intro i x hi hx
    by_cases hi0 : i = 0
    · exact ih i x (by omega) hx
    · have hlen : i < vec.length := (List.getElem?_eq_some_iff.1 hx).1
      have hplen : (i - 1) / 2 < vec.length := by omega
      have h1 := h i (by omega) x vec[(i - 1) / 2] hx (List.getElem?_eq_getElem hplen)
      exact le_trans h1
        (ih ((i - 1) / 2) vec[(i - 1) / 2] (by omega) (List.getElem?_eq_getElem hplen))

theorem heap_top_is_max {α K : Type} [LinearOrder K] (key : α → K) (vec : List α)
    (h : is_heap key vec) (t : α) (ht : vec[0]? = some t) (x : α) (hx : x ∈ vec) :
    key x ≤ key t := by
  obtain ⟨i, hi, hxi⟩ := List.getElem_of_mem hx
  exact heap_top_is_max_aux key vec h t ht i i x (le_refl _)
    (by rw [List.getElem?_eq_getElem hi, hxi])

theorem push_heap_is_heap {α K : Type} [LinearOrder K] (lt : α → α → Bool)
    (key : α → K) (ok : α → Prop)
    (hkey : ∀ a b, ok a → ok b → (lt a b = true ↔ key a < key b))
    (vec : List α) (value : α) (hok : ∀ x ∈ vec, ok x) (hv : ok value)
    (h : is_heap key vec) : is_heap key (push_heap lt (vec ++ [value])) := by
  have hl : (vec ++ [value]).getLast? = some value := by simp
  simp only [push_heap, hl, List.length_append, List.length_singleton, Nat.add_sub_cancel]
  apply push_heap_loop_is_heap lt key ok hkey value hv
  · intro x hx
    rcases List.mem_append.1 hx with h1 | h1
    · exact hok x h1
    · rw [List.mem_singleton.1 h1]; exact hv
  · exact le_refl _
  · simp
  · refine ⟨?_, ?_⟩
    · intro i hi hih hip x p hx hp
      have hil : i < (vec ++ [value]).length := (List.getElem?_eq_some_iff.1 hx).1
      simp only [List.length_append, List.length_singleton] at hil
      have hil2 : i < vec.length := by omega
      rw [List.getElem?_append_left hil2] at hx
      rw [List.getElem?_append_left (by omega)] at hp
      exact h i hi x p hx hp
    · intro i x g hi hip _ hx _
      have hil : i < (vec ++ [value]).length := (List.getElem?_eq_some_iff.1 hx).1
      simp only [List.length_append, List.length_singleton] at hil
      omega
  · intro i x hi hip hx
    have hil : i < (vec ++ [value]).length := (List.getElem?_eq_some_iff.1 hx).1
    simp only [List.length_append, List.length_singleton] at hil
    omega

theorem set_set_perm {α : Type} [DecidableEq α] (vec : List α) (i j : Nat) (m x : α)
    (hij : i ≠ j) (hi : i < vec.length) (hj : vec[j]? = some m) :
    List.Perm ((vec.set i m).set j x) (vec.set i x) := by
  have hjl : j < vec.length := (List.getElem?_eq_some_iff.1 hj).1
  have hjm : vec[j] = m := by
    rw [List.getElem?_eq_getElem hjl] at hj
    simpa using hj
  rw [List.perm_iff_count]
  intro b
  rw [List.count_set _ _ _ _ (by simpa using hjl), List.count_set _ _ _ _ hi,
    List.count_set _ _ _ _ hi]
  rw [List.getElem_set_ne hij]
  rw [hjm]
  have hle : (if vec[i] == b then 1 else 0) ≤ List.count b vec := by
    by_cases hb : vec[i] == b
    · simp only [hb, if_true]
      have : b ∈ vec := by
        have := List.getElem_mem hi
        rw [← (beq_iff_eq ..).1 hb]
        exact this
      exact List.count_pos_iff.2 this
    · simp [hb]
  split_ifs <;> omega


theorem push_heap_loop_perm {α : Type} [DecidableEq α] (lt : α → α → Bool) (value : α)
    (fuel : Nat) (vec : List α) (hole : Nat) (hlen : hole < vec.length) :
    List.Perm (push_heap_loop lt value fuel vec hole) (vec.set hole value) := by
  induction fuel generalizing vec hole with
  | zero => exact List.Perm.refl _
  | succ fuel ih =>
    have hplen : (hole - 1) / 2 < vec.length := by omega
    simp only [push_heap_loop, List.getElem?_eq_getElem hplen]
    split_ifs with hc
    · have hne : hole ≠ (hole - 1) / 2 := by omega
      refine (ih (vec.set hole vec[(hole - 1) / 2]) ((hole - 1) / 2)
        (by simpa using hplen)).trans ?_
      exact set_set_perm vec hole ((hole - 1) / 2) _ value hne hlen
        (List.getElem?_eq_getElem hplen)
    · exact List.Perm.refl _

theorem push_heap_perm {α : Type} [DecidableEq α] (lt : α → α → Bool) (vec : List α)
    (value : α) : List.Perm (push_heap lt (vec ++ [value])) (value :: vec) := by
  have hl : (vec ++ [value]).getLast? = some value := by simp
  simp only [push_heap, hl, List.length_append, List.length_singleton, Nat.add_sub_cancel]
  refine (push_heap_loop_perm lt value _ _ _ (by simp)).trans ?_
  have : (vec ++ [value]).set vec.length value = vec ++ [value] := by
    rw [List.set_append_right _ _ (le_refl _)]
    simp
  rw [this]
  exact List.perm_append_singleton value vec

theorem move_child_heap_except {α K : Type} [LinearOrder K] (key : α → K) (vec : List α)
    (h s : Nat) (m : α) (h1 : heap_except key vec h) (hh : h < vec.length)
    (hs : (s - 1) / 2 = h) (hs0 : 0 < s) (hm : vec[s]? = some m)
    (hother : ∀ i x, 0 < i → (i - 1) / 2 = h → i ≠ s → vec[i]? = some x → key x ≤ key m) :
    heap_except key (vec.set h m) s := by
  have hsh : h ≠ s := by omega
  refine ⟨?_, ?_⟩
  · intro i hi his hips x q hx hq
    by_cases hih : i = h
    · subst hih
      rw [List.getElem?_set_self hh] at hx
      have hxm : m = x := by simpa using hx
      subst hxm
      rw [List.getElem?_set_ne (by omega)] at hq
      exact h1.2 s m q hs0 hs hi hm hq
    · rw [List.getElem?_set_ne (Ne.symm hih)] at hx
      by_cases hph : (i - 1) / 2 = h
      · rw [List.getElem?_set, if_pos hph.symm, if_pos hh] at hq
        have hqm : m = q := by simpa using hq
        subst hqm
        exact hother i x hi hph his hx
      · rw [List.getElem?_set_ne (Ne.symm hph)] at hq
        exact h1.1 i hi hih hph x q hx hq
  · intro i x g hi hip _ hx hg
    rw [hs, List.getElem?_set_self hh] at hg
    have hgm : m = g := by simpa using hg
    subst hgm
    have hih : i ≠ h := by omega
    rw [List.getElem?_set_ne (Ne.symm hih)] at hx
    exact h1.1 i hi hih (by omega) x m hx (by rw [hip]; exact hm)

theorem adjust_heap_loop_spec {α K : Type} [LinearOrder K] [DecidableEq α]
    (lt : α → α → Bool) (key : α → K) (ok : α → Prop)
    (hkey : ∀ a b, ok a → ok b → (lt a b = true ↔ key a < key b))
    (fuel : Nat) (vec : List α) (hole : Nat)
    (hok : ∀ x ∈ vec, ok x) (hlen : hole < vec.length)
    (hfuel : vec.length ≤ fuel + hole) (h1 : heap_except key vec hole) :
    (adjust_heap_loop lt vec.length fuel vec hole).1.length = vec.length ∧
    (adjust_heap_loop lt vec.length fuel vec hole).2 < vec.length ∧
    ¬ (adjust_heap_loop lt vec.length fuel vec hole).2 < (vec.length - 1) / 2 ∧
    heap_except key (adjust_heap_loop lt vec.length fuel vec hole).1
      (adjust_heap_loop lt vec.length fuel vec hole).2 ∧
    (∀ x ∈ (adjust_heap_loop lt vec.length fuel vec hole).1, ok x) ∧
    ∀ v, List.Perm
      ((adjust_heap_loop lt vec.length fuel vec hole).1.set
        (adjust_heap_loop lt vec.length fuel vec hole).2 v) (vec.set hole v) := by
  induction fuel generalizing vec hole with
  | zero =>
    simp only [adjust_heap_loop]
    exact ⟨trivial, hlen, by omega, h1, hok, fun v => List.Perm.refl _⟩
  | succ fuel ih =>
    by_cases hc : hole < (vec.length - 1) / 2
    · have hr : 2 * (hole + 1) < vec.length := by omega
      have hl : 2 * (hole + 1) - 1 < vec.length := by omega
      have hrok : ok vec[2 * (hole + 1)] := hok _ (List.getElem_mem _)
      have hlok : ok vec[2 * (hole + 1) - 1] := hok _ (List.getElem_mem _)
      simp only [adjust_heap_loop, if_pos hc, List.getElem?_eq_getElem hr,
        List.getElem?_eq_getElem hl]
      split_ifs with hlt
      · -- the left child moves up
        have hklt := (hkey _ _ hrok hlok).1 hlt
        have hex : heap_except key (vec.set hole vec[2 * (hole + 1) - 1])
            (2 * (hole + 1) - 1) := by
          apply move_child_heap_except key vec hole _ _ h1 hlen (by omega) (by omega)
            (List.getElem?_eq_getElem hl)
          intro i x hi hip hne hx
          have hir : i = 2 * (hole + 1) := by omega
          subst hir
          rw [List.getElem?_eq_getElem hr] at hx
          have : vec[2 * (hole + 1)] = x := by simpa using hx
          rw [← this]
          exact le_of_lt hklt
        have hok2 : ∀ x ∈ vec.set hole vec[2 * (hole + 1) - 1], ok x := by
          intro x hx
          rcases List.mem_or_eq_of_mem_set hx with h | h
          · exact hok x h
          · rw [h]; exact hlok
        have := ih (vec.set hole vec[2 * (hole + 1) - 1]) (2 * (hole + 1) - 1) hok2
          (by simpa using hl) (by simp; omega) hex
        simp only [List.length_set] at this
        obtain ⟨r1, r2, r3, r4, r5, r6⟩ := this
        refine ⟨r1, r2, r3, r4, r5, ?_⟩
        intro v
        refine (r6 v).trans ?_
        exact set_set_perm vec hole _ _ v (by omega) hlen (List.getElem?_eq_getElem hl)
      · -- the right child moves up
        have hkle : key vec[2 * (hole + 1) - 1] ≤ key vec[2 * (hole + 1)] :=
          not_lt.1 ((hkey _ _ hrok hlok).not.1 hlt)
        have hex : heap_except key (vec.set hole vec[2 * (hole + 1)]) (2 * (hole + 1)) := by
          apply move_child_heap_except key vec hole _ _ h1 hlen (by omega) (by omega)
            (List.getElem?_eq_getElem hr)
          intro i x hi hip hne hx
          have hir : i = 2 * (hole + 1) - 1 := by omega
          subst hir
          rw [List.getElem?_eq_getElem hl] at hx
          have : vec[2 * (hole + 1) - 1] = x := by simpa using hx
          rw [← this]
          exact hkle
        have hok2 : ∀ x ∈ vec.set hole vec[2 * (hole + 1)], ok x := by
          intro x hx
          rcases List.mem_or_eq_of_mem_set hx with h | h
          · exact hok x h
          · rw [h]; exact hrok
        have := ih (vec.set hole vec[2 * (hole + 1)]) (2 * (hole + 1)) hok2
          (by simpa using hr) (by simp; omega) hex
        simp only [List.length_set] at this
        obtain ⟨r1, r2, r3, r4, r5, r6⟩ := this
        refine ⟨r1, r2, r3, r4, r5, ?_⟩
        intro v
        refine (r6 v).trans ?_
        exact set_set_perm vec hole _ _ v (by omega) hlen (List.getElem?_eq_getElem hr)
    · simp only [adjust_heap_loop, if_neg hc]
      exact ⟨trivial, hlen, hc, h1, hok, fun v => List.Perm.refl _⟩


theorem adjust_heap_last_spec {α K : Type} [LinearOrder K] [DecidableEq α]
    (key : α → K) (ok : α → Prop) (len : Nat) (vec : List α) (hole : Nat)
    (hl : vec.length = len) (hok : ∀ x ∈ vec, ok x) (hlen : hole < vec.length)
    (hc : ¬ hole < (len - 1) / 2) (h1 : heap_except key vec hole) :
    (adjust_heap_last len vec hole).1.length = len ∧
    (adjust_heap_last len vec hole).2 < len ∧
    (∀ i, 0 < i → (i - 1) / 2 = (adjust_heap_last len vec hole).2 → len ≤ i) ∧
    heap_except key (adjust_heap_last len vec hole).1 (adjust_heap_last len vec hole).2 ∧
    (∀ x ∈ (adjust_heap_last len vec hole).1, ok x) ∧
    ∀ v, List.Perm
      ((adjust_heap_last len vec hole).1.set (adjust_heap_last len vec hole).2 v)
      (vec.set hole v) := by
  subst hl
  by_cases hcond : vec.length % 2 = 0 ∧ hole = (vec.length - 2) / 2
  · have hll : 2 * (hole + 1) - 1 < vec.length := by omega
    simp only [adjust_heap_last, if_pos hcond, List.getElem?_eq_getElem hll]
    refine ⟨by simp, hll, ?_, ?_, ?_, ?_⟩
    · intro i hi hip
      omega
    · apply move_child_heap_except key vec hole _ _ h1 hlen (by omega) (by omega)
        (List.getElem?_eq_getElem hll)
      intro i x hi hip hne hx
      have hil : i < vec.length := (List.getElem?_eq_some_iff.1 hx).1
      omega
    · intro x hx
      rcases List.mem_or_eq_of_mem_set hx with h | h
      · exact hok x h
      · rw [h]; exact hok _ (List.getElem_mem _)
    · intro v
      exact set_set_perm vec hole _ _ v (by omega) hlen (List.getElem?_eq_getElem hll)
  · simp only [adjust_heap_last, if_neg hcond]
    refine ⟨trivial, hlen, ?_, h1, hok, fun v => List.Perm.refl _⟩
    intro i hi hip
    omega

theorem adjust_heap_spec {α K : Type} [LinearOrder K] [DecidableEq α]
    (lt : α → α → Bool) (key : α → K) (ok : α → Prop)
    (hkey : ∀ a b, ok a → ok b → (lt a b = true ↔ key a < key b))
    (vec : List α) (value : α) (hne : 0 < vec.length) (hok : ∀ x ∈ vec, ok x)
    (hv : ok value) (h1 : heap_except key vec 0) :
    is_heap key (adjust_heap lt vec value) ∧
    List.Perm (adjust_heap lt vec value) (vec.set 0 value) := by
  obtain ⟨a1, a2, a3, a4, a5, a6⟩ :=
    adjust_heap_loop_spec lt key ok hkey vec.length vec 0 hok hne (by omega) h1
  obtain ⟨b1, b2, b3, b4, b5, b6⟩ :=
    adjust_heap_last_spec key ok vec.length _ _ a1 a5 (by rw [a1]; exact a2) a3 a4
  simp only [adjust_heap]
  constructor
  · apply push_heap_loop_is_heap lt key ok hkey value hv _ _ _ b5 (le_refl _)
      (by rw [b1]; exact b2) b4
    intro i x hi hip hx
    have hil : i < _ := (List.getElem?_eq_some_iff.1 hx).1
    rw [b1] at hil
    have := b3 i hi hip
    omega
  · refine (push_heap_loop_perm lt value _ _ _ (by rw [b1]; exact b2)).trans ?_
    exact (b6 value).trans (a6 value)

theorem pop_heap_back_spec {α K : Type} [LinearOrder K] [DecidableEq α]
    (lt : α → α → Bool) (key : α → K) (ok : α → Prop)
    (hkey : ∀ a b, ok a → ok b → (lt a b = true ↔ key a < key b))
    (vec : List α) (hok : ∀ x ∈ vec, ok x) (h : is_heap key vec) :
    is_heap key (pop_heap_back lt vec) ∧ List.Perm (pop_heap_back lt vec) vec.tail := by
  cases hlast : vec.getLast? with
  | none =>
    have : vec = [] := by simpa using hlast
    subst this
    simp only [pop_heap_back, List.getLast?_nil]
    exact ⟨fun i _ x p hx _ => by simp at hx, List.Perm.refl _⟩
  | some last =>
    simp only [pop_heap_back, hlast]
    have hdl : vec.dropLast ++ [last] = vec := List.dropLast_append_getLast? last hlast
    split_ifs with hlen
    · have : vec.tail = [] := by
        cases vec with
        | nil => rfl
        | cons a t =>
          cases t with
          | nil => rfl
          | cons b t => simp at hlen
      rw [this]
      exact ⟨fun i _ x p hx _ => by simp at hx, List.Perm.refl _⟩
    · have hlenpos : 0 < vec.dropLast.length := by
        simp only [List.length_dropLast]
        omega
      have hokd : ∀ x ∈ vec.dropLast, ok x := by
        intro x hx
        apply hok
        rw [← hdl]
        exact List.mem_append_left _ hx
      have hokl : ok last := by
        apply hok
        rw [← hdl]
        simp
      have hex : heap_except key vec.dropLast 0 := by
        refine ⟨?_, ?_⟩
        · intro i hi _ _ x p hx hp
          rw [List.getElem?_dropLast] at hx hp
          split_ifs at hx hp
          exact h i hi x p hx hp
        · intro i x g _ _ h0
          omega
      obtain ⟨r1, r2⟩ := adjust_heap_spec lt key ok hkey vec.dropLast last hlenpos hokd
        hokl hex
      refine ⟨r1, r2.trans ?_⟩
      cases hD : vec.dropLast with
      | nil => rw [hD] at hlenpos; simp at hlenpos
      | cons t rest =>
        rw [hD] at hdl
        rw [← hdl]
        simp only [List.set_cons_zero, List.cons_append, List.tail_cons]
        exact (List.perm_append_singleton last rest).symm


theorem pair_lt_iff {P : Type} [LinearOrder P] (a b : float_t P × Nat)
    (ha : not_nan a) (hb : not_nan b) :
    pair_lt a b = true ↔ entry_key a < entry_key b := by
  obtain ⟨a1, a2⟩ := a
  obtain ⟨b1, b2⟩ := b
  cases a1 with
  | nan => exact absurd rfl ha
  | val x =>
    cases b1 with
    | nan => exact absurd rfl hb
    | val y =>
      simp only [pair_lt, float_lt, entry_key, Prod.Lex.lt_iff, ofLex_toLex,
        WithBot.coe_lt_coe, WithBot.coe_inj, Bool.or_eq_true, Bool.and_eq_true,
        decide_eq_true_eq, Bool.not_eq_true', decide_eq_false_iff_not, not_lt]
      constructor
      · rintro (h | ⟨h₁, h₂⟩)
        · exact Or.inl h
        · rcases lt_or_eq_of_le h₁ with h | h
          · exact Or.inl h
          · exact Or.inr ⟨h, h₂⟩
      · rintro (h | ⟨h₁, h₂⟩)
        · exact Or.inl h
        · exact Or.inr ⟨le_of_eq h₁, h₂⟩

theorem entry_key_le_iff {P : Type} [LinearOrder P] (x y : P) (h k : Nat) :
    entry_key (float_t.val x, h) ≤ entry_key (float_t.val y, k) ↔
      x < y ∨ (x = y ∧ h ≤ k) := by
  simp only [entry_key, Prod.Lex.le_iff, ofLex_toLex, WithBot.coe_lt_coe, WithBot.coe_inj]

theorem entry_key_injective {P : Type} [LinearOrder P] (a b : float_t P × Nat)
    (ha : not_nan a) (hb : not_nan b) (h : entry_key a = entry_key b) : a = b := by
  obtain ⟨a1, a2⟩ := a
  obtain ⟨b1, b2⟩ := b
  cases a1 with
  | nan => exact absurd rfl ha
  | val x =>
    cases b1 with
    | nan => exact absurd rfl hb
    | val y =>
      simp only [entry_key] at h
      have h2 := toLex.injective h
      simp only [Prod.mk.injEq, WithBot.coe_inj] at h2
      rw [h2.1, h2.2]


theorem reachable_valid {P : Type} [LinearOrder P] (q : priority_queue P)
    (h : priority_queue.reachable q) : is_heap entry_key q ∧ ∀ e ∈ q, not_nan e := by
  induction h with
  | empty =>
    exact ⟨fun i _ x p hx _ => by simp at hx, fun e he => by simp at he⟩
  | push q e _ he ih =>
    refine ⟨push_heap_is_heap pair_lt entry_key not_nan pair_lt_iff q e ih.2 he ih.1, ?_⟩
    intro x hx
    rcases List.mem_cons.1 ((push_heap_perm pair_lt q e).subset hx) with h1 | h1
    · rw [h1]; exact he
    · exact ih.2 x h1
  | pop q _ ih =>
    obtain ⟨r1, r2⟩ := pop_heap_back_spec pair_lt entry_key not_nan pair_lt_iff q ih.2 ih.1
    refine ⟨r1, ?_⟩
    intro x hx
    exact ih.2 x (List.mem_of_mem_tail (r2.subset hx))

theorem reachable_of_pushes_from {P : Type} [LinearOrder P] (es : List (float_t P × Nat))
    (q : priority_queue P) (hq : priority_queue.reachable q)
    (h : ∀ e ∈ es, e.1 ≠ float_t.nan) :
    priority_queue.reachable (es.foldl priority_queue.push q) := by
  induction es generalizing q with
  | nil => exact hq
  | cons e es ih =>
    exact ih _ (priority_queue.reachable.push q e hq (h e (List.mem_cons_self _ _)))
      (fun x hx => h x (List.mem_cons_of_mem _ hx))

theorem reachable_of_pushes {P : Type} [LinearOrder P] (es : List (float_t P × Nat))
    (h : ∀ e ∈ es, e.1 ≠ float_t.nan) :
    priority_queue.reachable (priority_queue.of_pushes es) :=
  reachable_of_pushes_from es [] priority_queue.reachable.empty h

theorem of_pushes_perm_from {P : Type} [LinearOrder P] (es : List (float_t P × Nat))
    (q : priority_queue P) : List.Perm (es.foldl priority_queue.push q) (q ++ es) := by
  induction es generalizing q with
  | nil => simp
  | cons e es ih =>
    simp only [List.foldl_cons]
    refine (ih _).trans ?_
    refine ((push_heap_perm pair_lt q e).append_right es).trans ?_
    simpa using (@List.perm_middle _ e q es).symm

theorem of_pushes_perm {P : Type} [LinearOrder P] (es : List (float_t P × Nat)) :
    List.Perm (priority_queue.of_pushes es) es := by
  simpa [priority_queue.of_pushes] using of_pushes_perm_from es []

/-- C1, as the code has it: in every state the `index_queue` reaches by pushes of
entries whose priority is not NaN and by pops, if it is not empty, `choose` returns
the handle `h` of one of its entries `(p, h)` and leaves the queue without that entry;
no entry has a higher priority than `p`, and among the entries with priority `p` none
has a larger handle: ties are broken by the config handle, as the ordering of
`std::pair<float, uint64_t>` has it (no entry of such a state has a NaN priority).
Every such state with the same entries, in whatever order they were inserted, gives
the same handle. -/
theorem choose_greatest_pair {P : Type} [LinearOrder P] (q : priority_queue P)
    (hq : priority_queue.reachable q) (hne : q ≠ []) :
    ∃ p h, (float_t.val p, h) ∈ q ∧
      choose q = some (h, priority_queue.pop q) ∧
      (∀ e ∈ q, e.1 ≠ float_t.nan) ∧
      (∀ p2 h2, (float_t.val p2, h2) ∈ q → p2 ≤ p) ∧
      (∀ h2, (float_t.val p, h2) ∈ q → h2 ≤ h) ∧
      List.Perm ((float_t.val p, h) :: priority_queue.pop q) q ∧
      priority_queue.reachable (priority_queue.pop q) ∧
      (∀ q2 : priority_queue P, priority_queue.reachable q2 → List.Perm q q2 →
        (choose q2).map Prod.fst = some h) := by
  obtain ⟨hheap, hok⟩ := reachable_valid q hq
  cases hqm : q with
  | nil => exact absurd hqm hne
  | cons m rest =>
    have hmem : m ∈ q := by rw [hqm]; exact List.mem_cons_self _ _
    have hm0 : q[0]? = some m := by rw [hqm]; simp
    have hmok : not_nan m := hok m hmem
    obtain ⟨m1, h⟩ := m
    cases m1 with
    | nan => exact absurd rfl hmok
    | val p =>
      have hmax : ∀ x ∈ q, entry_key x ≤ entry_key (float_t.val p, h) :=
        fun x hx => heap_top_is_max entry_key q hheap _ hm0 x hx
      have hpop := pop_heap_back_spec pair_lt entry_key not_nan pair_lt_iff q hok hheap
      rw [← hqm]
      refine ⟨p, h, hmem, ?_, hok, ?_, ?_, ?_, priority_queue.reachable.pop q hq, ?_⟩
      · simp only [choose]
        rw [hqm]
        simp only [priority_queue.top]
      · intro p2 h2 hx
        rcases (entry_key_le_iff p2 p h2 h).1 (hmax _ hx) with h1 | h1
        · exact le_of_lt h1
        · exact le_of_eq h1.1
      · intro h2 hx
        rcases (entry_key_le_iff p p h2 h).1 (hmax _ hx) with h1 | h1
        · exact absurd h1 (lt_irrefl p)
        · exact h1.2
      · have h2 : List.Perm (priority_queue.pop q) rest := by
          have := hpop.2
          rw [hqm] at this
          simpa [priority_queue.pop, hqm] using this
        rw [hqm]
        rw [hqm] at h2
        exact List.Perm.cons _ h2
      · intro q2 hq2 hperm
        obtain ⟨hheap2, hok2⟩ := reachable_valid q2 hq2
        cases hq2m : q2 with
        | nil =>
          rw [hq2m] at hperm
          exact absurd (List.Perm.eq_nil hperm) hne
        | cons m2 rest2 =>
          have hmem2 : m2 ∈ q2 := by rw [hq2m]; exact List.mem_cons_self _ _
          have hm20 : q2[0]? = some m2 := by rw [hq2m]; simp
          have h1 : entry_key m2 ≤ entry_key (float_t.val p, h) :=
            hmax m2 (hperm.symm.subset hmem2)
          have h2 : entry_key (float_t.val p, h) ≤ entry_key m2 :=
            heap_top_is_max entry_key q2 hheap2 _ hm20 _ (hperm.subset hmem)
          have heq : m2 = (float_t.val p, h) :=
            entry_key_injective _ _ (hok2 m2 hmem2) hmok (le_antisymm h1 h2)
          simp only [choose, priority_queue.top, Option.map_some', heq]

/-- Witness of `choose_greatest_pair`: three entries pushed, two of them with the
highest priority. -/
theorem choose_greatest_pair_witness :
    ∃ p h, (float_t.val p, h) ∈ priority_queue.of_pushes
        ([(float_t.val 3, 1), (float_t.val 2, 5), (float_t.val 3, 4)] :
          List (float_t Int × Nat)) ∧
      choose (priority_queue.of_pushes
        ([(float_t.val 3, 1), (float_t.val 2, 5), (float_t.val 3, 4)] :
          List (float_t Int × Nat)))
        = some (h, priority_queue.pop (priority_queue.of_pushes
            ([(float_t.val 3, 1), (float_t.val 2, 5), (float_t.val 3, 4)] :
              List (float_t Int × Nat)))) ∧
      (∀ e ∈ priority_queue.of_pushes
        ([(float_t.val 3, 1), (float_t.val 2, 5), (float_t.val 3, 4)] :
          List (float_t Int × Nat)), e.1 ≠ float_t.nan) ∧
      (∀ p2 h2, (float_t.val p2, h2) ∈ priority_queue.of_pushes
        ([(float_t.val 3, 1), (float_t.val 2, 5), (float_t.val 3, 4)] :
          List (float_t Int × Nat)) → p2 ≤ p) ∧
      (∀ h2, (float_t.val p, h2) ∈ priority_queue.of_pushes
        ([(float_t.val 3, 1), (float_t.val 2, 5), (float_t.val 3, 4)] :
          List (float_t Int × Nat)) → h2 ≤ h) ∧
      List.Perm ((float_t.val p, h) :: priority_queue.pop (priority_queue.of_pushes
        ([(float_t.val 3, 1), (float_t.val 2, 5), (float_t.val 3, 4)] :
          List (float_t Int × Nat))))
        (priority_queue.of_pushes
          ([(float_t.val 3, 1), (float_t.val 2, 5), (float_t.val 3, 4)] :
            List (float_t Int × Nat))) ∧
      priority_queue.reachable (priority_queue.pop (priority_queue.of_pushes
        ([(float_t.val 3, 1), (float_t.val 2, 5), (float_t.val 3, 4)] :
          List (float_t Int × Nat)))) ∧
      (∀ q2 : priority_queue Int, priority_queue.reachable q2 →
        List.Perm (priority_queue.of_pushes
          ([(float_t.val 3, 1), (float_t.val 2, 5), (float_t.val 3, 4)] :
            List (float_t Int × Nat))) q2 →
        (choose q2).map Prod.fst = some h) :=
  choose_greatest_pair _ (reachable_of_pushes _ (by decide)) (by decide)

/-- C1 fails as stated. After `(1, handle 0)` and then `(1, handle 1)` are pushed, two
entries of equal priority, `choose` returns handle 1, the entry pushed last, while the
entry of maximal priority pushed earliest has handle 0. Pushed in the other order the
two entries leave the queue in the same state, so no body of `choose` whatever returns
the earliest-inserted handle in both cases. With a NaN among the priorities not even
the first half of the claim holds: after `(2, handle 0)`, `(NaN, handle 1)` and
`(1, handle 2)` are pushed, `choose` returns handle 2, whose priority 1 is not
maximal, and another order of the same pushes gives handle 0. -/
theorem choose_not_fifo :
    (choose (priority_queue.of_pushes
      ([(float_t.val 1, 0), (float_t.val 1, 1)] : List (float_t Int × Nat)))).map Prod.fst
      = some 1 ∧
    earliest_max_handle ([(float_t.val 1, 0), (float_t.val 1, 1)] : List (float_t Int × Nat))
      = some 0 ∧
    ¬ (∀ es : List (float_t Int × Nat), es ≠ [] →
        (choose (priority_queue.of_pushes es)).map Prod.fst = earliest_max_handle es) ∧
    (∀ body : priority_queue Int → Option Nat,
      ¬ (body (priority_queue.of_pushes [(float_t.val 1, 0), (float_t.val 1, 1)])
            = earliest_max_handle
                ([(float_t.val 1, 0), (float_t.val 1, 1)] : List (float_t Int × Nat)) ∧
          body (priority_queue.of_pushes [(float_t.val 1, 1), (float_t.val 1, 0)])
            = earliest_max_handle
                ([(float_t.val 1, 1), (float_t.val 1, 0)] : List (float_t Int × Nat)))) ∧
    (choose (priority_queue.of_pushes
      ([(float_t.val 2, 0), (float_t.nan, 1), (float_t.val 1, 2)] :
        List (float_t Int × Nat)))).map Prod.fst = some 2 ∧
    (choose (priority_queue.of_pushes
      ([(float_t.val 1, 2), (float_t.nan, 1), (float_t.val 2, 0)] :
        List (float_t Int × Nat)))).map Prod.fst = some 0 := by
  refine ⟨by decide, by decide, ?_, ?_, by decide, by decide⟩
  · intro h
    exact absurd (h [(float_t.val 1, 0), (float_t.val 1, 1)] (by decide)) (by decide)
  · intro body h
    have hq : priority_queue.of_pushes
        ([(float_t.val 1, 0), (float_t.val 1, 1)] : List (float_t Int × Nat))
        = priority_queue.of_pushes [(float_t.val 1, 1), (float_t.val 1, 0)] := by decide
    have h0 : earliest_max_handle
        ([(float_t.val 1, 0), (float_t.val 1, 1)] : List (float_t Int × Nat)) = some 0 := by
      decide
    have h1 : earliest_max_handle
        ([(float_t.val 1, 1), (float_t.val 1, 0)] : List (float_t Int × Nat)) = some 1 := by
      decide
    rw [hq, h0, h1] at h
    have := h.1.symm.trans h.2
    exact absurd this (by decide)

/-! ### The champion's slot -/

theorem member_call_current_champ {P W : Type}
    (body : interaction_config_manager P W → interaction_config_manager P W)
    (s : interaction_config_manager P W) :
    (member_call body s).current_champ = s.current_champ := rfl

theorem run_ops_current_champ {P W : Type}
    (schedule_body update_champ_body :
      interaction_config_manager P W → interaction_config_manager P W)
    (ops : List manager_op) (s : interaction_config_manager P W) :
    (run_ops schedule_body update_champ_body ops s).current_champ = s.current_champ := by
  induction ops generalizing s with
  | nil => rfl
  | cons op ops ih =>
    cases op with
    | schedule =>
      simp only [run_ops]
      rw [ih, member_call_current_champ]
    | update_champ =>
      simp only [run_ops]
      rw [ih, member_call_current_champ]

/-- C2: in the state a constructed manager is in after any sequence of `schedule` and
`update_champ` calls, `current_champ` is 0, whatever the bodies of the constructor and
of the two member functions do: the member is `const` with initializer 0. -/
theorem current_champ_is_zero {P W : Type} (a : member_initializers W)
    (ctor_body schedule_body update_champ_body :
      interaction_config_manager P W → interaction_config_manager P W)
    (ops : List manager_op) :
    (run_ops schedule_body update_champ_body ops
      (interaction_config_manager.ctor a ctor_body)).current_champ = 0 := by
  rw [run_ops_current_champ]
  rfl

/-! ### Clearing the weights of the non-champion slots -/

theorem clear_slot_from_getElem? {W : Type} [Zero W] (slot_of : Nat → Nat) (slot : Nat)
    (ws : List W) (i j : Nat) :
    (clear_slot_from slot_of slot i ws)[j]? =
      (ws[j]?).map (fun w => if slot_of (i + j) = slot then 0 else w) := by
  induction ws generalizing i j with
  | nil => simp [clear_slot_from]
  | cons w ws ih =>
    cases j with
    | zero => simp [clear_slot_from]
    | succ j =>
      simp only [clear_slot_from, List.getElem?_cons_succ]
      rw [ih]
      have : i + 1 + j = i + (j + 1) := by omega
      rw [this]

theorem clear_slot_getElem? {W : Type} [Zero W] (slot_of_cell : Nat → Nat → Nat)
    (weights : List W) (slot wpp j : Nat) :
    (clear_slot slot_of_cell weights slot wpp)[j]? =
      (weights[j]?).map (fun w => if slot_of_cell wpp j = slot then 0 else w) := by
  simp [clear_slot, clear_slot_from_getElem?]

theorem clear_slots_getElem? {W : Type} [Zero W] (slot_of_cell : Nat → Nat → Nat)
    (wpp : Nat) (slots : List Nat) (weights : List W) (j : Nat) :
    (slots.foldl (fun w slot => clear_slot slot_of_cell w slot wpp) weights)[j]? =
      (weights[j]?).map (fun w => if slot_of_cell wpp j ∈ slots then 0 else w) := by
  induction slots generalizing weights with
  | nil => simp
  | cons s slots ih =>
    simp only [List.foldl_cons]
    rw [ih, clear_slot_getElem?]
    cases weights[j]? with
    | none => rfl
    | some w =>
      simp only [Option.map_some', List.mem_cons]
      by_cases h₁ : slot_of_cell wpp j = s
      · simp [h₁]
      · by_cases h₂ : slot_of_cell wpp j ∈ slots
        · simp [h₂]
        · simp [h₁, h₂]

theorem clear_non_champ_weights_getElem? {W : Type} [Zero W]
    (slot_of_cell : Nat → Nat → Nat) (weights : List W) (total wpp j : Nat) :
    (clear_non_champ_weights slot_of_cell weights total wpp)[j]? =
      (weights[j]?).map
        (fun w => if 1 ≤ slot_of_cell wpp j ∧ slot_of_cell wpp j < total then 0 else w) := by
  unfold clear_non_champ_weights
  rw [clear_slots_getElem?]
  congr 1
  funext w
  have : slot_of_cell wpp j ∈ List.range' 1 (total - 1) ↔
      (1 ≤ slot_of_cell wpp j ∧ slot_of_cell wpp j < total) := by
    rw [List.mem_range'_1]
    omega
  simp only [this]

/-- C8: whatever the layout `slot_of_cell` that says which slot a cell belongs to,
`clear_non_champ_weights(weights, total, wpp)` keeps the size of the weight array,
leaves every cell of slot 0 (the champion's) as it was, and sets every cell of a slot
`1, ..., total - 1` to zero; the cells of slots from `total` on are left as they were
too. -/
theorem clear_non_champ_weights_effect {W : Type} [Zero W] (slot_of_cell : Nat → Nat → Nat)
    (weights : List W) (total wpp i : Nat) (hi : i < weights.length) :
    (clear_non_champ_weights slot_of_cell weights total wpp).length = weights.length ∧
    (slot_of_cell wpp i = 0 →
      (clear_non_champ_weights slot_of_cell weights total wpp)[i]? = weights[i]?) ∧
    (1 ≤ slot_of_cell wpp i → slot_of_cell wpp i < total →
      (clear_non_champ_weights slot_of_cell weights total wpp)[i]? = some 0) ∧
    (total ≤ slot_of_cell wpp i →
      (clear_non_champ_weights slot_of_cell weights total wpp)[i]? = weights[i]?) := by
  refine ⟨?_, ?_, ?_, ?_⟩
  · apply Nat.le_antisymm
    · by_contra h
      have h1 := clear_non_champ_weights_getElem? slot_of_cell weights total wpp
        weights.length
      rw [List.getElem?_eq_getElem (by omega)] at h1
      simp at h1
    · by_contra h
      have hlt : (clear_non_champ_weights slot_of_cell weights total wpp).length
          < weights.length := by
        omega
      obtain ⟨k, hk⟩ :
          ∃ k, k = (clear_non_champ_weights slot_of_cell weights total wpp).length :=
        ⟨_, rfl⟩
      have h1 := clear_non_champ_weights_getElem? slot_of_cell weights total wpp k
      rw [List.getElem?_eq_none (by omega), List.getElem?_eq_getElem (by omega)] at h1
      simp at h1
  · intro h0
    rw [clear_non_champ_weights_getElem?, List.getElem?_eq_getElem hi]
    simp [h0]
  · intro h1 h2
    rw [clear_non_champ_weights_getElem?, List.getElem?_eq_getElem hi]
    simp [h1, h2]
  · intro h
    rw [clear_non_champ_weights_getElem?, List.getElem?_eq_getElem hi]
    have : ¬ slot_of_cell wpp i < total := by omega
    simp [this]

/-- Witness of `clear_non_champ_weights_effect`: eight cells, three slots in use,
`wpp = 4`, slots interleaved. Cell 4 (slot 0) keeps its value, cell 5 (slot 1) becomes
zero, cell 7 (slot 3, not in use) keeps its value. With `wpp = 2` and slots in blocks,
cell 1 (slot 0) keeps its value and cell 5 (slot 2) becomes zero. -/
theorem clear_non_champ_weights_effect_witness :
    (clear_non_champ_weights interleaved_layout
        ([7, 8, 9, 10, 11, 12, 13, 14] : List Int) 3 4)[4]? = some 11 ∧
    (clear_non_champ_weights interleaved_layout
        ([7, 8, 9, 10, 11, 12, 13, 14] : List Int) 3 4)[5]? = some 0 ∧
    (clear_non_champ_weights interleaved_layout
        ([7, 8, 9, 10, 11, 12, 13, 14] : List Int) 3 4)[7]? = some 14 ∧
    (clear_non_champ_weights block_layout
        ([7, 8, 9, 10, 11, 12, 13, 14] : List Int) 3 2)[1]? = some 8 ∧
    (clear_non_champ_weights block_layout
        ([7, 8, 9, 10, 11, 12, 13, 14] : List Int) 3 2)[5]? = some 0 :=
  ⟨(clear_non_champ_weights_effect interleaved_layout
      ([7, 8, 9, 10, 11, 12, 13, 14] : List Int) 3 4 4 (by decide)).2.1 (by decide),
   (clear_non_champ_weights_effect interleaved_layout
      ([7, 8, 9, 10, 11, 12, 13, 14] : List Int) 3 4 5 (by decide)).2.2.1 (by decide)
      (by decide),
   (clear_non_champ_weights_effect interleaved_layout
      ([7, 8, 9, 10, 11, 12, 13, 14] : List Int) 3 4 7 (by decide)).2.2.2 (by decide),
   (clear_non_champ_weights_effect block_layout
      ([7, 8, 9, 10, 11, 12, 13, 14] : List Int) 3 2 1 (by decide)).2.1 (by decide),
   (clear_non_champ_weights_effect block_layout
      ([7, 8, 9, 10, 11, 12, 13, 14] : List Int) 3 2 5 (by decide)).2.2.1 (by decide)
      (by decide)⟩

/-! ### `update_champ` and the number of champion switches -/

theorem first_winner_from_some (better : Bool → aml_estimator → estimator_config → Bool)
    (lb_trick : Bool) (estimators : List (aml_estimator × estimator_config))
    (n slot w : Nat) (h : first_winner_from better lb_trick estimators slot n = some w) :
    slot ≤ w ∧ w < slot + n ∧ challenger_wins better lb_trick estimators w = true ∧
      ∀ k, slot ≤ k → k < w → challenger_wins better lb_trick estimators k = false := by
  induction n generalizing slot with
  | zero => simp [first_winner_from] at h
  | succ n ih =>
    simp only [first_winner_from] at h
    split_ifs at h with hw
    · have hsw : slot = w := by simpa using h
      subst hsw
      exact ⟨le_refl _, by omega, hw, fun k h₁ h₂ => by omega⟩
    · obtain ⟨h₁, h₂, h₃, h₄⟩ := ih (slot + 1) h
      refine ⟨by omega, by omega, h₃, ?_⟩
      intro k hk₁ hk₂
      by_cases hks : k = slot
      · subst hks
        simpa using hw
      · exact h₄ k (by omega) hk₂

theorem first_winner_from_none (better : Bool → aml_estimator → estimator_config → Bool)
    (lb_trick : Bool) (estimators : List (aml_estimator × estimator_config))
    (n slot : Nat) (h : first_winner_from better lb_trick estimators slot n = none) :
    ∀ k, slot ≤ k → k < slot + n →
      challenger_wins better lb_trick estimators k = false := by
  induction n generalizing slot with
  | zero => intro k h₁ h₂; omega
  | succ n ih =>
    simp only [first_winner_from] at h
    split_ifs at h with hw
    intro k hk₁ hk₂
    by_cases hks : k = slot
    · subst hks
      simpa using hw
    · exact ih (slot + 1) h k (by omega) (by omega)

theorem reset_non_champ_head (ps : List (aml_estimator × estimator_config)) :
    (reset_non_champ 0 ps)[0]? = ps[0]? := by
  cases ps with
  | nil => rfl
  | cons p ps => simp [reset_non_champ]

theorem promote_head (w : Nat) (estimators : List (aml_estimator × estimator_config))
    (h₁ : 1 ≤ w) (h₂ : w < estimators.length) :
    (promote w estimators)[0]? = estimators[w]? := by
  have h0 : 0 < estimators.length := by omega
  simp only [promote, List.getElem?_eq_getElem h0, List.getElem?_eq_getElem h₂]
  rw [reset_non_champ_head]
  rw [List.getElem?_set_ne (by omega), List.getElem?_set_self]
  simp [h0]

/-- C9: when some live slot after slot 0 holds a challenger that is marked
`eligible_to_inactivate` and is better than its champion horizon, one call of
`update_champ` moves the estimator pair of the first such slot into slot 0 and
increments `total_champ_switches` once (a `uint64_t` increment: by exactly 1 unless
the counter holds its largest value), however many challengers are better; when no
slot holds such a challenger the call changes nothing. -/
theorem update_champ_switches_once {P W : Type}
    (better : Bool → aml_estimator → estimator_config → Bool)
    (s : interaction_config_manager P W) :
    ((∃ slot, 1 ≤ slot ∧ slot < s.estimators.length ∧
        challenger_wins better s._lb_trick s.estimators slot = true) →
      (update_champ better s).total_champ_switches = (s.total_champ_switches + 1) % 2 ^ 64 ∧
      (s.total_champ_switches + 1 < 2 ^ 64 →
        (update_champ better s).total_champ_switches = s.total_champ_switches + 1) ∧
      ∃ w, 1 ≤ w ∧ w < s.estimators.length ∧
        challenger_wins better s._lb_trick s.estimators w = true ∧
        (∀ k, 1 ≤ k → k < w → challenger_wins better s._lb_trick s.estimators k = false) ∧
        (update_champ better s).estimators[0]? = s.estimators[w]?) ∧
    ((¬ ∃ slot, 1 ≤ slot ∧ slot < s.estimators.length ∧
        challenger_wins better s._lb_trick s.estimators slot = true) →
      update_champ better s = s) := by
  constructor
  · rintro ⟨slot, hs₁, hs₂, hs₃⟩
    cases hfw : first_winner better s._lb_trick s.estimators with
    | none =>
      have := first_winner_from_none better s._lb_trick s.estimators _ 1 hfw slot hs₁
        (by omega)
      rw [this] at hs₃
      exact Bool.noConfusion hs₃
    | some w =>
      obtain ⟨hw₁, hw₂, hw₃, hw₄⟩ :=
        first_winner_from_some better s._lb_trick s.estimators _ 1 w hfw
      have hw₂ : w < s.estimators.length := by omega
      have hupd : update_champ better s =
          { s with
            total_champ_switches := (s.total_champ_switches + 1) % 2 ^ 64
            estimators := promote w s.estimators } := by
        simp only [update_champ, hfw]
      refine ⟨by rw [hupd], ?_, w, hw₁, hw₂, hw₃, hw₄, ?_⟩
      · intro hlt
        rw [hupd]
        exact Nat.mod_eq_of_lt hlt
      · rw [hupd]
        exact promote_head w s.estimators hw₁ hw₂
  · intro hno
    cases hfw : first_winner better s._lb_trick s.estimators with
    | none => simp only [update_champ, hfw]
    | some w =>
      obtain ⟨hw₁, hw₂, hw₃, _⟩ :=
        first_winner_from_some better s._lb_trick s.estimators _ 1 w hfw
      exact absurd ⟨w, hw₁, by omega, hw₃⟩ hno

/-- Witness of `update_champ_switches_once`. In the first pool the challengers of
slots 2 and 3 are both eligible and better (slot 1 is better but not eligible): the
counter goes from 3 to 4 and the pair of slot 2 is moved to slot 0. In the second
pool no challenger is better and the call changes nothing. -/
theorem update_champ_switches_once_witness :
    (update_champ example_better (example_manager
        [example_pair 0 5 false 5, example_pair 1 9 false 5, example_pair 2 8 true 5,
          example_pair 3 7 true 5])).total_champ_switches = 4 ∧
    (update_champ example_better (example_manager
        [example_pair 0 5 false 5, example_pair 1 9 false 5, example_pair 2 8 true 5,
          example_pair 3 7 true 5])).estimators[0]? = some (example_pair 2 8 true 5) ∧
    update_champ example_better (example_manager
        [example_pair 0 5 false 5, example_pair 1 4 true 5, example_pair 2 5 true 5])
      = example_manager
        [example_pair 0 5 false 5, example_pair 1 4 true 5, example_pair 2 5 true 5] := by
  have h := (update_champ_switches_once example_better (example_manager
        [example_pair 0 5 false 5, example_pair 1 9 false 5, example_pair 2 8 true 5,
          example_pair 3 7 true 5])).1 ⟨3, by decide, by decide, by decide⟩
  refine ⟨h.2.1 (by decide), ?_, ?_⟩
  · obtain ⟨w, hw₁, hw₂, hw₃, hw₄, hw₅⟩ := h.2.2
    have hw : w = 2 := by
      have hlen : w < 4 := hw₂
      have h2 := hw₄ 2
      interval_cases w
      · revert hw₃; decide
      · rfl
      · exact absurd (h2 (by decide) (by decide)) (by decide)
    subst hw
    rw [hw₅]
    rfl
  · apply (update_champ_switches_once example_better (example_manager
        [example_pair 0 5 false 5, example_pair 1 4 true 5, example_pair 2 5 true 5])).2
    rintro ⟨slot, h₁, h₂, h₃⟩
    have hlen : slot < 3 := h₂
    interval_cases slot
    · revert h₃; decide
    · revert h₃; decide

/-! ### Persistence round trip -/

theorem to_bytes_length (width n : Nat) : (to_bytes width n).length = width := by
  induction width generalizing n with
  | zero => rfl
  | succ w ih => simp [to_bytes, ih]

theorem to_bytes_lt (width n : Nat) : ∀ b ∈ to_bytes width n, b < 256 := by
  induction width generalizing n with
  | zero => simp [to_bytes]
  | succ w ih =>
    intro b hb
    simp only [to_bytes, List.mem_cons] at hb
    rcases hb with rfl | hb
    · exact Nat.mod_lt _ (by decide)
    · exact ih _ b hb

theorem of_bytes_to_bytes (width n : Nat) (h : n < 256 ^ width) :
    of_bytes (to_bytes width n) = n := by
  induction width generalizing n with
  | zero =>
    simp only [pow_zero, Nat.lt_one_iff] at h
    subst h
    rfl
  | succ w ih =>
    simp only [to_bytes, of_bytes]
    have hdiv : n / 256 < 256 ^ w := by
      rw [Nat.div_lt_iff_lt_mul (by decide)]
      rw [pow_succ] at h
      exact h
    rw [ih _ hdiv]
    omega

theorem read_uint_enc (width n : Nat) (rest : io_buf) (h : n < 256 ^ width) :
    read_uint width (enc_uint width n ++ rest) = some (n, rest) := by
  have hall : (to_bytes width n).length = width ∧ ∀ b ∈ to_bytes width n, b < 256 :=
    ⟨to_bytes_length width n, to_bytes_lt width n⟩
  simp only [read_uint, enc_uint, write_field, read_field, List.nil_append, List.cons_append]
  rw [if_pos hall, of_bytes_to_bytes _ _ h]

theorem read_uint8_enc (n : Nat) (rest : io_buf) (h : n < 2 ^ 64) :
    read_uint 8 (enc_uint 8 n ++ rest) = some (n, rest) :=
  read_uint_enc 8 n rest (by simpa using h)

theorem read_uint1_enc (n : Nat) (rest : io_buf) (h : n < 256) :
    read_uint 1 (enc_uint 1 n ++ rest) = some (n, rest) :=
  read_uint_enc 1 n rest (by simpa using h)

theorem read_bool_enc (b : Bool) (rest : io_buf) :
    read_bool (enc_bool b ++ rest) = some (b, rest) := by
  cases b
  · simp [read_bool, enc_bool, read_uint1_enc]
  · simp [read_bool, enc_bool, read_uint1_enc]

theorem read_config_state_enc (s : config_state) (rest : io_buf) :
    read_config_state (enc_config_state s ++ rest) = some (s, rest) := by
  cases s <;>
    simp [read_config_state, enc_config_state, config_state.to_nat, read_uint_enc]

theorem read_automl_state_enc (s : automl_state) (rest : io_buf) :
    read_automl_state (enc_automl_state s ++ rest) = some (s, rest) := by
  cases s <;>
    simp [read_automl_state, enc_automl_state, automl_state.to_nat, read_uint_enc]

theorem read_n_enc_all {α : Type} (enc : α → io_buf)
    (read : io_buf → Option (α × io_buf)) (xs : List α) (rest : io_buf)
    (h : ∀ x ∈ xs, ∀ r, read (enc x ++ r) = some (x, r)) :
    read_n read xs.length (enc_all enc xs ++ rest) = some (xs, rest) := by
  induction xs with
  | nil => rfl
  | cons x xs ih =>
    simp only [List.length_cons, read_n, enc_all, List.append_assoc]
    rw [h x (List.mem_cons_self _ _)]
    simp only
    rw [ih (fun y hy => h y (List.mem_cons_of_mem _ hy))]

theorem read_list_enc_list {α : Type} (enc : α → io_buf)
    (read : io_buf → Option (α × io_buf)) (xs : List α) (rest : io_buf)
    (hlen : xs.length < 2 ^ 64)
    (h : ∀ x ∈ xs, ∀ r, read (enc x ++ r) = some (x, r)) :
    read_list read (enc_list enc xs ++ rest) = some (xs, rest) := by
  simp only [read_list, enc_list, List.append_assoc]
  rw [read_uint8_enc _ _ hlen]
  simp only
  exact read_n_enc_all enc read xs rest h

theorem read_interaction_enc (v : interaction_t) (rest : io_buf) (h : interaction_fits v) :
    read_interaction (enc_interaction v ++ rest) = some (v, rest) :=
  read_list_enc_list (enc_uint 1) (read_uint 1) v rest h.1
    (fun x hx r => read_uint1_enc x r (h.2 x hx))

theorem insert_all_lease (xs : List interaction_t) (c : exclusion_config) :
    (c.insert_all xs).lease = c.lease := by
  induction xs generalizing c with
  | nil => rfl
  | cons x xs ih =>
    simp only [exclusion_config.insert_all, List.foldl_cons] at ih ⊢
    rw [ih]
    rfl

theorem insert_all_sorted_list (L : Nat) (xs : List interaction_t) (h : set_sorted xs) :
    ((exclusion_config.ctor L).insert_all xs).exclusions = xs := by
  have hnil : set_sorted (exclusion_config.ctor L).exclusions := List.Pairwise.nil
  apply set_sorted_ext _ _ (insert_all_sorted xs _ hnil) h
  intro i
  rw [mem_insert_all]
  simp [exclusion_config.ctor]

theorem read_exclusion_config_enc (c : exclusion_config) (rest : io_buf)
    (h : exclusion_config_fits c) :
    read_model_field_exclusion_config (enc_exclusion_config c ++ rest) = some (c, rest) := by
  obtain ⟨hs, hlen, hv, hl⟩ := h
  simp only [read_model_field_exclusion_config, enc_exclusion_config, List.append_assoc]
  rw [read_list_enc_list enc_interaction read_interaction c.exclusions _ hlen
    (fun v hv2 r => read_interaction_enc v r (hv v hv2))]
  simp only
  rw [read_uint8_enc _ _ hl]
  simp only
  rw [read_config_state_enc]
  simp only [Option.some.injEq, Prod.mk.injEq, and_true]
  cases c with
  | mk exclusions lease state =>
    simp only [exclusion_config.mk.injEq, and_true]
    exact ⟨insert_all_sorted_list lease exclusions hs, insert_all_lease _ _⟩

theorem read_estimator_config_enc (e : estimator_config) (rest : io_buf)
    (h : estimator_config_fits e) :
    read_estimator_config (enc_estimator_config e ++ rest) = some (e, rest) := by
  obtain ⟨ha, ht, hlen, hd⟩ := h
  simp only [read_estimator_config, enc_estimator_config, List.append_assoc]
  rw [read_uint8_enc _ _ ha]
  simp only
  rw [read_uint8_enc _ _ ht]
  simp only
  rw [read_list_enc_list (enc_uint 8) (read_uint 8) e.statistics _ hlen
    (fun d hd2 r => read_uint8_enc d r (hd d hd2))]

theorem read_aml_estimator_enc (a : aml_estimator) (rest : io_buf)
    (h : aml_estimator_fits a) :
    read_model_field_aml_estimator (enc_aml_estimator a ++ rest) = some (a, rest) := by
  obtain ⟨hb, hc, hlen, hv⟩ := h
  simp only [read_model_field_aml_estimator, enc_aml_estimator, List.append_assoc]
  rw [read_estimator_config_enc _ _ hb]
  simp only
  rw [read_uint8_enc _ _ hc]
  simp only
  rw [read_bool_enc]
  simp only
  rw [read_list_enc_list enc_interaction read_interaction a.live_interactions _ hlen
    (fun v hv2 r => read_interaction_enc v r (hv v hv2))]
  rfl

theorem read_estimator_pair_enc (p : aml_estimator × estimator_config) (rest : io_buf)
    (h : aml_estimator_fits p.1 ∧ estimator_config_fits p.2) :
    read_estimator_pair (enc_estimator_pair p ++ rest) = some (p, rest) := by
  simp only [read_estimator_pair, enc_estimator_pair, List.append_assoc]
  rw [read_aml_estimator_enc _ _ h.1]
  simp only
  rw [read_estimator_config_enc _ _ h.2]

theorem read_ns_count_enc (kv : namespace_index × Nat) (rest : io_buf)
    (h : kv.1 < 256 ∧ kv.2 < 2 ^ 64) :
    read_ns_count (enc_ns_count kv ++ rest) = some (kv, rest) := by
  simp only [read_ns_count, enc_ns_count, List.append_assoc]
  rw [read_uint1_enc _ _ h.1]
  simp only
  rw [read_uint8_enc _ _ h.2]

theorem map_assign_last (k : namespace_index) (v : Nat) (m : List (namespace_index × Nat))
    (h : ∀ kv ∈ m, kv.1 < k) : map_assign k v m = m ++ [(k, v)] := by
  induction m with
  | nil => rfl
  | cons kv m ih =>
    obtain ⟨k2, v2⟩ := kv
    have hk : k2 < k := h (k2, v2) (List.mem_cons_self _ _)
    have hnot : ¬ k < k2 := fun hlt => absurd hk (Nat.lt_asymm hlt)
    simp only [map_assign, if_neg hnot, if_pos hk, List.cons_append]
    rw [ih (fun kv hkv => h kv (List.mem_cons_of_mem _ hkv))]

theorem map_assign_all_sorted (xs pre : List (namespace_index × Nat))
    (h : map_sorted (pre ++ xs)) :
    xs.foldl (fun m kv => map_assign kv.1 kv.2 m) pre = pre ++ xs := by
  induction xs generalizing pre with
  | nil => simp
  | cons x xs ih =>
    simp only [List.foldl_cons]
    have hx : map_assign x.1 x.2 pre = pre ++ [x] := by
      apply map_assign_last
      intro kv hkv
      unfold map_sorted at h
      rw [List.pairwise_append] at h
      exact h.2.2 kv hkv x (List.mem_cons_self _ _)
    rw [hx, ih (pre ++ [x]) (by simpa using h)]
    simp

theorem read_manager_enc {P W : Type} (src tgt : interaction_config_manager P W)
    (rest : io_buf) (h : manager_fits src) :
    read_model_field_interaction_config_manager
        (enc_interaction_config_manager src ++ rest) tgt =
      some ({ tgt with
              total_champ_switches := src.total_champ_switches
              total_learn_count := src.total_learn_count
              ns_counter := src.ns_counter
              configs := src.configs
              estimators := src.estimators }, rest) := by
  obtain ⟨hc₁, hc₂, he₁, he₂, hs, hl, hch, hm₁, hm₂, hm₃⟩ := h
  simp only [read_model_field_interaction_config_manager, enc_interaction_config_manager,
    List.append_assoc]
  rw [read_list_enc_list enc_exclusion_config read_model_field_exclusion_config src.configs _
    hc₁ (fun c hc r => read_exclusion_config_enc c r (hc₂ c hc))]
  simp only
  rw [read_list_enc_list enc_estimator_pair read_estimator_pair src.estimators _ he₁
    (fun p hp r => read_estimator_pair_enc p r (he₂ p hp))]
  simp only
  rw [read_uint8_enc _ _ hs]
  simp only
  rw [read_uint8_enc _ _ hl]
  simp only
  rw [read_uint8_enc _ _ hch]
  simp only
  rw [read_list_enc_list enc_ns_count read_ns_count src.ns_counter _ hm₂
    (fun kv hkv r => read_ns_count_enc kv r (hm₃ kv hkv))]
  simp only
  rw [map_assign_all_sorted src.ns_counter [] (by simpa using hm₁)]
  simp

/-- C7: a driver `src` whose persisted members are values of their C++ types, in
state `Collecting` or `Experimenting`, is written with `write_model_field` to an
empty buffer and read back with `read_model_field` into a driver `tgt` (whose manager
has the same `current_champ`, a `const` member). The read succeeds, uses up the
buffer, and the driver it yields has the automl state of `src` and a manager with the
configs, estimators, `ns_counter`, champion handle, `total_champ_switches` and
`total_learn_count` of `src`. -/
theorem model_field_round_trip {P W Logger Learner : Type}
    (src tgt : automl (interaction_config_manager P W) Logger Learner)
    (hfits : manager_fits src.cm)
    (hchamp : tgt.cm.current_champ = src.cm.current_champ) :
    ∃ restored, read_model_field_automl (write_model_field_automl [] src) tgt
        = some (restored, []) ∧
      restored.current_state = src.current_state ∧
      restored.cm.configs = src.cm.configs ∧
      restored.cm.estimators = src.cm.estimators ∧
      restored.cm.ns_counter = src.cm.ns_counter ∧
      restored.cm.current_champ = src.cm.current_champ ∧
      restored.cm.total_champ_switches = src.cm.total_champ_switches ∧
      restored.cm.total_learn_count = src.cm.total_learn_count := by
  have hread : read_model_field_automl (write_model_field_automl [] src) tgt =
      some ({ tgt with
              current_state := src.current_state
              cm := { tgt.cm with
                      total_champ_switches := src.cm.total_champ_switches
                      total_learn_count := src.cm.total_learn_count
                      ns_counter := src.cm.ns_counter
                      configs := src.cm.configs
                      estimators := src.cm.estimators } }, []) := by
    simp only [read_model_field_automl, write_model_field_automl, enc_automl, List.nil_append]
    rw [read_automl_state_enc]
    simp only
    have h := read_manager_enc src.cm tgt.cm [] hfits
    rw [List.append_nil] at h
    rw [h]
  exact ⟨_, hread, rfl, rfl, rfl, rfl, hchamp, rfl, rfl⟩

/-- Witness of `model_field_round_trip`: a driver in state `Experimenting` with four
configs, three estimator pairs and two counted namespaces, restored into a newly
constructed driver. -/
theorem model_field_round_trip_witness :
    ∃ restored,
      read_model_field_automl
          (write_model_field_automl []
            (example_driver automl_state.Experimenting (example_manager
              [example_pair 0 5 false 5, example_pair 1 4 true 5, example_pair 2 5 true 5])))
          (example_driver automl_state.Collecting example_fresh_manager)
        = some (restored, []) ∧
      restored.current_state = automl_state.Experimenting ∧
      restored.cm.configs = (example_manager []).configs ∧
      restored.cm.estimators =
        [example_pair 0 5 false 5, example_pair 1 4 true 5, example_pair 2 5 true 5] ∧
      restored.cm.ns_counter = [(65, 2), (66, 1)] ∧
      restored.cm.current_champ = 0 ∧
      restored.cm.total_champ_switches = 3 ∧
      restored.cm.total_learn_count = 40 :=
  model_field_round_trip
    (example_driver automl_state.Experimenting (example_manager
      [example_pair 0 5 false 5, example_pair 1 4 true 5, example_pair 2 5 true 5]))
    (example_driver automl_state.Collecting example_fresh_manager)
    (by
      simp only [manager_fits, exclusion_config_fits, aml_estimator_fits,
        estimator_config_fits, interaction_fits, set_sorted, map_sorted, example_driver,
        example_manager, example_pair, automl.ctor, exclusion_config.ctor]
      decide)
    rfl

end Automl
